import Mathlib

/-!
Verification development for the progressive JSON recovery pipeline of the
Creative Production Engine backend (`core/engine/views.py`).

The pipeline's own functions (`repair_json`, `repair_json_times`,
`fix_single_quotes_in_list`, `repair_multiline_value_string`,
`extract_first_json_object`, `try_literal_eval_object`, `safe_json_loads`)
are embedded over `List Char`, mirroring the Python source line by line.
The Python standard-library facilities they call are modelled explicitly:

* `json.loads` as a strict recursive-descent JSON parser (`json_loads`),
  faithful to the default decoder on the fragment exercised here: it skips
  JSON whitespace, rejects raw control characters inside strings, decodes
  backslash escapes including `\uXXXX` and surrogate pairs, and rejects
  trailing data.  Non-integer numerals (floats, NaN/Infinity) and lone
  surrogates are outside the model (no claim exercises them), and the
  exception text is abstracted to a fixed non-empty message.
* `json.dumps` of a string (default `ensure_ascii=True`) as
  `json_dumps_string`.
* the three compiled regular expressions as explicit scanners with the
  leftmost, greedy/lazy and backtracking behaviour of `re.sub`, with `\w`,
  `\s` and `\d` read over ASCII.
* `ast.literal_eval` as a permissive literal parser (`litParse`) over
  mapping/sequence/string/integer/bool/None literals with single- or
  double-quoted strings; Python values with no JSON analogue (tuples, sets,
  floats, non-string dict keys) are parse failures in the model.  A Python
  `None` result — from an exception or from the literal `None` — is the
  value `JValue.null`, exactly as the source conflates both with `None`.
-/

namespace CPE

/-! ## Characters and character classes -/

def dquote : Char := Char.ofNat 34

def squote : Char := Char.ofNat 39

def bslash : Char := Char.ofNat 92

def obrace : Char := Char.ofNat 123

def cbrace : Char := Char.ofNat 125

def nlc : Char := Char.ofNat 10

def crc : Char := Char.ofNat 13

def tabc : Char := Char.ofNat 9

def bspc : Char := Char.ofNat 8

def ffc : Char := Char.ofNat 12

def vtc : Char := Char.ofNat 11

/-- Python `str.strip()` / regex `\s` whitespace (ASCII fragment). -/
def isPySpace (c : Char) : Bool :=
  c = ' ' || c = tabc || c = nlc || c = crc || c = vtc || c = ffc

/-- JSON whitespace accepted between tokens by `json.loads`. -/
def isJsonWs (c : Char) : Bool :=
  c = ' ' || c = tabc || c = nlc || c = crc

def isDigitCh (c : Char) : Bool := 48 ≤ c.toNat && c.toNat ≤ 57

/-- Regex `\w` (ASCII fragment, as exercised by the repository's data). -/
def isWordCh (c : Char) : Bool :=
  (97 ≤ c.toNat && c.toNat ≤ 122) || (65 ≤ c.toNat && c.toNat ≤ 90) ||
    isDigitCh c || c = '_'

/-! ## Python string primitives -/

/-- Python `str.find` returning the first index of `c`, `none` for `-1`. -/
def pyFind (c : Char) : List Char → Option Nat
  | [] => none
  | x :: xs => if x = c then some 0 else (pyFind c xs).map (· + 1)

/-- Python `str.rfind` returning the last index of `c`, `none` for `-1`. -/
def pyRFind (c : Char) : List Char → Option Nat
  | [] => none
  | x :: xs =>
    match pyRFind c xs with
    | some i => some (i + 1)
    | none => if x = c then some 0 else none

/-- Python `str.strip()`. -/
def pyStrip (l : List Char) : List Char :=
  ((l.dropWhile isPySpace).reverse.dropWhile isPySpace).reverse

/-- Python `str.replace` (leftmost, non-overlapping), with fuel. -/
def pyReplaceF : Nat → List Char → List Char → List Char → List Char
  | 0, s, _, _ => s
  | _ + 1, [], _, _ => []
  | fuel + 1, c :: rest, pat, rep =>
    if pat ≠ [] && pat.isPrefixOf (c :: rest) then
      rep ++ pyReplaceF fuel ((c :: rest).drop pat.length) pat rep
    else c :: pyReplaceF fuel rest pat rep

def pyReplace (s pat rep : List Char) : List Char :=
  pyReplaceF (s.length + 1) s pat rep

/-! ## `repair_json` (Delimiter Balancer) -/

/-- The square-bracket balancing step of `repair_json`. -/
def repairBrackets (r : List Char) : List Char :=
  if r.count ']' < r.count '[' then
    r ++ List.replicate (r.count '[' - r.count ']') ']'
  else r

/-- The curly-brace balancing step of `repair_json`. -/
def repairBraces (r : List Char) : List Char :=
  if r.count cbrace < r.count obrace then
    r ++ List.replicate (r.count obrace - r.count cbrace) cbrace
  else r

/-- The final step of `repair_json`: truncate after the last closing brace. -/
def repairTrunc (r : List Char) : List Char :=
  match pyRFind cbrace r with
  | some last => r.take (last + 1)
  | none => r

/-- `repair_json` from `views.py`: slice from the first brace and strip,
append the square-bracket deficit, then the curly-brace deficit, then
truncate after the last closing brace — the successive reassignments of
`raw` in the Python body, composed in order. -/
def repair_json (raw : List Char) : List Char :=
  if raw = [] then raw else
  match pyFind obrace raw with
  | none => raw
  | some start =>
    repairTrunc (repairBraces (repairBrackets (pyStrip (raw.drop start))))

/-! ## `extract_first_json_object` (Boundary Extractor) -/

/-- The scan loop of `extract_first_json_object`: depth/in-string/escape
state over the characters, returning the length of the prefix ending at the
brace where depth returns to zero (Python's `s[:i+1]`). -/
def scanObj : List Char → Int → Bool → Bool → Option Nat
  | [], _, _, _ => none
  | ch :: rest, depth, inStr, esc =>
    if inStr then
      if esc then (scanObj rest depth true false).map (· + 1)
      else if ch = bslash then (scanObj rest depth true true).map (· + 1)
      else if ch = dquote then (scanObj rest depth false false).map (· + 1)
      else (scanObj rest depth true false).map (· + 1)
    else if ch = dquote then (scanObj rest depth true false).map (· + 1)
    else if ch = obrace then (scanObj rest (depth + 1) false false).map (· + 1)
    else if ch = cbrace then
      if depth - 1 = 0 then some 1
      else (scanObj rest (depth - 1) false false).map (· + 1)
    else (scanObj rest depth false false).map (· + 1)

/-- `extract_first_json_object` from `views.py`. -/
def extract_first_json_object (raw : List Char) : List Char :=
  if raw = [] then raw else
  match pyFind obrace raw with
  | none => raw
  | some start =>
    let s := raw.drop start
    match scanObj s 0 false false with
    | some n => s.take n
    | none => s

/-! ## `repair_json_times` (Scalar Normalizer)

Model of `re.sub` with pattern `(:\s*)(\d{1,2}:\d{2})(\s*[,}\]])`:
a colon, greedy whitespace, one or two digits (two tried first, with
backtracking to one), a colon, exactly two digits, greedy whitespace and a
terminator, replaced by `group1 + quote + group2 + quote + group3`. -/

/-- Matches `:\d{2}` and returns (matched chars, rest). -/
def timeMM : List Char → Option (List Char × List Char)
  | ':' :: m1 :: m2 :: t =>
    if isDigitCh m1 && isDigitCh m2 then some ([':', m1, m2], t) else none
  | _ => none

/-- Matches `\s*[,}\]]` and returns (group3, rest). -/
def timeEnd (t : List Char) : Option (List Char × List Char) :=
  let ws2 := t.takeWhile isPySpace
  match t.dropWhile isPySpace with
  | c :: r => if c = ',' || c = cbrace || c = ']' then some (ws2 ++ [c], r) else none
  | [] => none

/-- Attempts the time-token pattern at the head of `s`; on success returns
(group1, group2, group3, rest after the match). -/
def timeMatchAt (s : List Char) : Option (List Char × List Char × List Char × List Char) :=
  match s with
  | [] => none
  | c0 :: t =>
    if c0 = ':' then
      let ws1 := t.takeWhile isPySpace
      match t.dropWhile isPySpace with
      | [] => none
      | d1 :: t2 =>
        if isDigitCh d1 then
          let two : Option (List Char × List Char) :=
            match t2 with
            | d2 :: t3 =>
              if isDigitCh d2 then (timeMM t3).map (fun p => (d1 :: d2 :: p.1, p.2))
              else none
            | [] => none
          let core : Option (List Char × List Char) :=
            match two with
            | some p => some p
            | none => (timeMM t2).map (fun p => (d1 :: p.1, p.2))
          match core with
          | some (g2, t4) => (timeEnd t4).map (fun p => (c0 :: ws1, g2, p.1, p.2))
          | none => none
        else none
    else none

/-- `re.sub` driver for the time-token pattern (fuel-structured; the fuel
`length + 1` always suffices since every step consumes a character). -/
def timeSubF : Nat → List Char → List Char
  | 0, s => s
  | _ + 1, [] => []
  | fuel + 1, c :: rest =>
    match timeMatchAt (c :: rest) with
    | some (g1, g2, g3, r) => g1 ++ dquote :: (g2 ++ dquote :: g3) ++ timeSubF fuel r
    | none => c :: timeSubF fuel rest

/-- `repair_json_times` from `views.py`. -/
def repair_json_times (raw : List Char) : List Char :=
  if raw = [] then raw else timeSubF (raw.length + 1) raw

/-! ## `fix_single_quotes_in_list` (Quote Normalizer)

Model of `re.sub` with pattern
`'((?:[^'\\]|\\.|(?<=\w)'(?=\w))*)'`: a single-quoted literal whose body is
a greedy star over three alternatives — any char but quote/backslash, a
backslash followed by any non-newline char, or an apostrophe between word
characters — with regex backtracking: when the greedy continuation fails at
an inner apostrophe, the star stops and that apostrophe closes the literal. -/

/-- The star of the quote pattern, starting after the opening quote.
`prev` is the character immediately before the current position (lookbehind).
Returns (group body, rest after the closing quote). -/
def sqScan : Char → List Char → Option (List Char × List Char)
  | _, [] => none
  | prev, c :: rest =>
    if c = squote then
      if isWordCh prev && (match rest with | n :: _ => isWordCh n | [] => false) then
        match sqScan c rest with
        | some (g, r) => some (c :: g, r)
        | none => some ([], rest)
      else some ([], rest)
    else if c = bslash then
      match rest with
      | d :: rest2 =>
        if d = nlc then none
        else (sqScan d rest2).map (fun p => (c :: d :: p.1, p.2))
      | [] => none
    else (sqScan c rest).map (fun p => (c :: p.1, p.2))

/-- The replacement of `fix_single_quotes_in_list`:
`inner.replace('\\"', '"').replace('"', '\\"')` wrapped in double quotes. -/
def sqRepl (g : List Char) : List Char :=
  let g1 := pyReplace g [bslash, dquote] [dquote]
  let g2 := pyReplace g1 [dquote] [bslash, dquote]
  dquote :: g2 ++ [dquote]

/-- `re.sub` driver for the single-quote pattern. -/
def sqSubF : Nat → List Char → List Char
  | 0, s => s
  | _ + 1, [] => []
  | fuel + 1, c :: rest =>
    if c = squote then
      match sqScan c rest with
      | some (g, r) => sqRepl g ++ sqSubF fuel r
      | none => c :: sqSubF fuel rest
    else c :: sqSubF fuel rest

/-- `fix_single_quotes_in_list` from `views.py`. -/
def fix_single_quotes_in_list (raw : List Char) : List Char :=
  if raw = [] then raw else sqSubF (raw.length + 1) raw

/-! ## `json.dumps` of a string (default `ensure_ascii=True`) -/

def hexDigit : Nat → Char
  | 0 => '0' | 1 => '1' | 2 => '2' | 3 => '3' | 4 => '4'
  | 5 => '5' | 6 => '6' | 7 => '7' | 8 => '8' | 9 => '9'
  | 10 => 'a' | 11 => 'b' | 12 => 'c' | 13 => 'd' | 14 => 'e'
  | _ => 'f'

def toHex4 (u : Nat) : List Char :=
  [hexDigit (u / 4096 % 16), hexDigit (u / 256 % 16),
   hexDigit (u / 16 % 16), hexDigit (u % 16)]

/-- One character of `json.dumps` string output: the named short escapes,
`\u00XX` for other control characters, raw ASCII in `0x20–0x7E`, `\uXXXX`
for the basic multilingual plane and surrogate pairs beyond it. -/
def encodeChar (c : Char) : List Char :=
  if c = dquote then [bslash, dquote]
  else if c = bslash then [bslash, bslash]
  else if c = nlc then [bslash, 'n']
  else if c = tabc then [bslash, 't']
  else if c = crc then [bslash, 'r']
  else if c = bspc then [bslash, 'b']
  else if c = ffc then [bslash, 'f']
  else if c.toNat < 0x20 then bslash :: 'u' :: toHex4 c.toNat
  else if c.toNat < 0x7F then [c]
  else if c.toNat < 0x10000 then bslash :: 'u' :: toHex4 c.toNat
  else
    let u := c.toNat - 0x10000
    (bslash :: 'u' :: toHex4 (0xD800 + u / 0x400)) ++
      (bslash :: 'u' :: toHex4 (0xDC00 + u % 0x400))

def escapeChars : List Char → List Char
  | [] => []
  | c :: t => encodeChar c ++ escapeChars t

/-- `json.dumps` applied to a string value. -/
def json_dumps_string (s : List Char) : List Char :=
  dquote :: escapeChars s ++ [dquote]

/-! ## `repair_multiline_value_string` (Multiline String Re-escaper)

Model of `re.sub` with `("value"\s*:\s*)"(.*?)"\s*(?=\}\s*$)` under
`re.DOTALL`: the lazy content ends at the first double quote after which,
skipping whitespace, a closing brace followed only by whitespace ends the
candidate; the trailing whitespace is consumed by the match and the
lookahead is not. -/

/-- The lookahead `(?=\}\s*$)` checked after the match's own `\s*`. -/
def mlCheckTail (t : List Char) : Bool :=
  match t.dropWhile isPySpace with
  | c :: r => c = cbrace && r.all isPySpace
  | [] => false

/-- Lazy scan for the closing quote of the content group; returns
(content, rest after the consumed trailing whitespace). -/
def mlFindClose : List Char → Option (List Char × List Char)
  | [] => none
  | c :: t =>
    if c = dquote then
      if mlCheckTail t then some ([], t.dropWhile isPySpace)
      else (mlFindClose t).map (fun p => (c :: p.1, p.2))
    else (mlFindClose t).map (fun p => (c :: p.1, p.2))

/-- Attempts the multiline-value pattern at the head of `s`; on success
returns (group1, content, rest after the match). -/
def mlMatchAt (s : List Char) : Option (List Char × List Char × List Char) :=
  match s with
  | [] => none
  | c :: t =>
    if c = dquote then
      match t with
      | 'v' :: 'a' :: 'l' :: 'u' :: 'e' :: q :: t2 =>
        if q = dquote then
          let ws1 := t2.takeWhile isPySpace
          match t2.dropWhile isPySpace with
          | ':' :: t3 =>
            let ws2 := t3.takeWhile isPySpace
            match t3.dropWhile isPySpace with
            | q2 :: t4 =>
              if q2 = dquote then
                (mlFindClose t4).map (fun p =>
                  (dquote :: 'v' :: 'a' :: 'l' :: 'u' :: 'e' :: dquote ::
                    (ws1 ++ ':' :: ws2), p.1, p.2))
              else none
            | [] => none
          | _ => none
        else none
      | _ => none
    else none

/-- `re.sub` driver: the replacement is `group1 + json.dumps(content)`. -/
def mlSubF : Nat → List Char → List Char
  | 0, s => s
  | _ + 1, [] => []
  | fuel + 1, c :: rest =>
    match mlMatchAt (c :: rest) with
    | some (g1, inner, r) => g1 ++ json_dumps_string inner ++ mlSubF fuel r
    | none => c :: mlSubF fuel rest

/-- `repair_multiline_value_string` from `views.py`. -/
def repair_multiline_value_string (raw : List Char) : List Char :=
  if raw = [] then raw else mlSubF (raw.length + 1) raw

/-! ## Structured values -/

/-- The tagged union of parsed documents.  `null` doubles as Python's
`None`, exactly as in the source, where `json.loads("null")`, a caught
exception and a failed fallback all produce the same Python `None`.
Numbers are modelled as integers (no claim involves non-integer numerals). -/
inductive JValue where
  | null : JValue
  | bool : Bool → JValue
  | num : Int → JValue
  | str : List Char → JValue
  | arr : List JValue → JValue
  | obj : List (List Char × JValue) → JValue
deriving Repr

mutual

def jbeq : JValue → JValue → Bool
  | .null, .null => true
  | .bool a, .bool b => a == b
  | .num a, .num b => a == b
  | .str a, .str b => a == b
  | .arr a, .arr b => jbeqList a b
  | .obj a, .obj b => jbeqMems a b
  | _, _ => false

def jbeqList : List JValue → List JValue → Bool
  | [], [] => true
  | x :: xs, y :: ys => jbeq x y && jbeqList xs ys
  | _, _ => false

def jbeqMems : List (List Char × JValue) → List (List Char × JValue) → Bool
  | [], [] => true
  | (k1, v1) :: xs, (k2, v2) :: ys => k1 == k2 && jbeq v1 v2 && jbeqMems xs ys
  | _, _ => false

end

mutual

theorem jbeq_iff : ∀ a b : JValue, jbeq a b = true ↔ a = b
  | .null, .null => by simp [jbeq]
  | .bool _, .bool _ => by simp [jbeq]
  | .num _, .num _ => by simp [jbeq]
  | .str _, .str _ => by simp [jbeq]
  | .arr x, .arr y => by simp [jbeq, jbeqList_iff x y]
  | .obj x, .obj y => by simp [jbeq, jbeqMems_iff x y]
  | .null, .bool _ | .null, .num _ | .null, .str _ | .null, .arr _ | .null, .obj _
  | .bool _, .null | .bool _, .num _ | .bool _, .str _ | .bool _, .arr _ | .bool _, .obj _
  | .num _, .null | .num _, .bool _ | .num _, .str _ | .num _, .arr _ | .num _, .obj _
  | .str _, .null | .str _, .bool _ | .str _, .num _ | .str _, .arr _ | .str _, .obj _
  | .arr _, .null | .arr _, .bool _ | .arr _, .num _ | .arr _, .str _ | .arr _, .obj _
  | .obj _, .null | .obj _, .bool _ | .obj _, .num _ | .obj _, .str _ | .obj _, .arr _ => by
    simp [jbeq]

theorem jbeqList_iff : ∀ xs ys : List JValue, jbeqList xs ys = true ↔ xs = ys
  | [], [] => by simp [jbeqList]
  | x :: xs, y :: ys => by simp [jbeqList, jbeq_iff x y, jbeqList_iff xs ys]
  | [], _ :: _ => by simp [jbeqList]
  | _ :: _, [] => by simp [jbeqList]

theorem jbeqMems_iff :
    ∀ xs ys : List (List Char × JValue), jbeqMems xs ys = true ↔ xs = ys
  | [], [] => by simp [jbeqMems]
  | (k1, v1) :: xs, (k2, v2) :: ys => by
    simp [jbeqMems, jbeq_iff v1 v2, jbeqMems_iff xs ys, and_assoc]
  | [], _ :: _ => by simp [jbeqMems]
  | _ :: _, [] => by simp [jbeqMems]

end

instance : DecidableEq JValue := fun a b => decidable_of_iff _ (jbeq_iff a b)

/-- Python `dict` insertion: an existing key keeps its position and takes
the new value, a new key is appended. -/
def insertKey : List (List Char × JValue) → List Char → JValue → List (List Char × JValue)
  | [], k, v => [(k, v)]
  | (k0, v0) :: t, k, v =>
    if k0 = k then (k0, v) :: t else (k0, v0) :: insertKey t k v

/-! ## Strict parser (`json.loads` model) -/

def skipJWs (s : List Char) : List Char := s.dropWhile isJsonWs

def hexVal (c : Char) : Option Nat :=
  if isDigitCh c then some (c.toNat - 48)
  else if 'a' ≤ c && c ≤ 'f' then some (c.toNat - 87)
  else if 'A' ≤ c && c ≤ 'F' then some (c.toNat - 55)
  else none

def hex4 (a b c d : Char) : Option Nat :=
  match hexVal a, hexVal b, hexVal c, hexVal d with
  | some x, some y, some z, some w => some (((x * 16 + y) * 16 + z) * 16 + w)
  | _, _, _, _ => none

/-- JSON string body after the opening quote: raw control characters are
rejected (`strict=True`), the standard escapes and `\uXXXX` are decoded,
surrogate pairs are combined.  Lone surrogates are a model-level parse
failure (a Lean `Char` cannot carry them). -/
def parseStrBody : List Char → List Char → Option (List Char × List Char)
  | [], _ => none
  | c :: rest, acc =>
    if c = dquote then some (acc.reverse, rest)
    else if c = bslash then
      match rest with
      | [] => none
      | e :: rest2 =>
        if e = dquote then parseStrBody rest2 (dquote :: acc)
        else if e = bslash then parseStrBody rest2 (bslash :: acc)
        else if e = '/' then parseStrBody rest2 ('/' :: acc)
        else if e = 'n' then parseStrBody rest2 (nlc :: acc)
        else if e = 't' then parseStrBody rest2 (tabc :: acc)
        else if e = 'r' then parseStrBody rest2 (crc :: acc)
        else if e = 'b' then parseStrBody rest2 (bspc :: acc)
        else if e = 'f' then parseStrBody rest2 (ffc :: acc)
        else if e = 'u' then
          match rest2 with
          | a :: b :: c2 :: d :: rest3 =>
            if (hex4 a b c2 d).isSome then
              if 0xD800 ≤ (hex4 a b c2 d).getD 0 ∧ (hex4 a b c2 d).getD 0 < 0xDC00 then
                match rest3 with
                | x :: y :: a2 :: b2 :: c3 :: d2 :: rest4 =>
                  if x = bslash then
                    if y = 'u' then
                      if (hex4 a2 b2 c3 d2).isSome then
                        if 0xDC00 ≤ (hex4 a2 b2 c3 d2).getD 0 ∧
                            (hex4 a2 b2 c3 d2).getD 0 < 0xE000 then
                          parseStrBody rest4
                            (Char.ofNat (0x10000 +
                              ((hex4 a b c2 d).getD 0 - 0xD800) * 0x400 +
                              ((hex4 a2 b2 c3 d2).getD 0 - 0xDC00)) :: acc)
                        else none
                      else none
                    else none
                  else none
                | _ => none
              else if 0xDC00 ≤ (hex4 a b c2 d).getD 0 ∧
                  (hex4 a b c2 d).getD 0 < 0xE000 then none
              else parseStrBody rest3 (Char.ofNat ((hex4 a b c2 d).getD 0) :: acc)
            else none
          | _ => none
        else none
    else if c.toNat < 0x20 then none
    else parseStrBody rest (c :: acc)

def digitsToNat (ds : List Char) : Nat :=
  ds.foldl (fun a c => a * 10 + (c.toNat - 48)) 0

/-- Unsigned integer numeral: digits without a forbidden leading zero, not
continued by a fraction or exponent (non-integer numerals are outside the
model). -/
def parseUNum (s : List Char) : Option (Nat × List Char) :=
  let ds := s.takeWhile isDigitCh
  let r := s.dropWhile isDigitCh
  if ds = [] then none
  else if 1 < ds.length && ds.head? = some '0' then none
  else
    match r with
    | c :: _ =>
      if c = '.' || c = 'e' || c = 'E' then none else some (digitsToNat ds, r)
    | [] => some (digitsToNat ds, [])

def parseNum (s : List Char) : Option (Int × List Char) :=
  match s with
  | [] => none
  | c :: t =>
    if c = '-' then (parseUNum t).map (fun p => (-(p.1 : Int), p.2))
    else (parseUNum (c :: t)).map (fun p => ((p.1 : Int), p.2))

mutual

/-- One JSON value at the head of `s` (leading whitespace already skipped).
The fuel decreases on every recursive call; `length + 1` always suffices. -/
def parseValue : Nat → List Char → Option (JValue × List Char)
  | 0, _ => none
  | fuel + 1, s =>
    match s with
    | [] => none
    | c :: rest =>
      if c = dquote then (parseStrBody rest []).map (fun p => (JValue.str p.1, p.2))
      else if c = obrace then
        if (skipJWs rest).head? = some cbrace then some (JValue.obj [], (skipJWs rest).tail)
        else parseMems fuel (skipJWs rest) []
      else if c = '[' then
        if (skipJWs rest).head? = some ']' then some (JValue.arr [], (skipJWs rest).tail)
        else parseElems fuel (skipJWs rest) []
      else if c = 't' then
        if rest.take 3 = ['r', 'u', 'e'] then some (JValue.bool true, rest.drop 3)
        else none
      else if c = 'f' then
        if rest.take 4 = ['a', 'l', 's', 'e'] then some (JValue.bool false, rest.drop 4)
        else none
      else if c = 'n' then
        if rest.take 3 = ['u', 'l', 'l'] then some (JValue.null, rest.drop 3)
        else none
      else (parseNum s).map (fun p => (JValue.num p.1, p.2))

/-- Members of an object, positioned at a key. -/
def parseMems : Nat → List Char → List (List Char × JValue) → Option (JValue × List Char)
  | 0, _, _ => none
  | fuel + 1, s, acc =>
    match s with
    | [] => none
    | c :: rest =>
      if c = dquote then
        (parseStrBody rest []).bind (fun kp =>
          if (skipJWs kp.2).head? = some ':' then
            (parseValue fuel (skipJWs (skipJWs kp.2).tail)).bind (fun vp =>
              if (skipJWs vp.2).head? = some ',' then
                parseMems fuel (skipJWs (skipJWs vp.2).tail) (insertKey acc kp.1 vp.1)
              else if (skipJWs vp.2).head? = some cbrace then
                some (JValue.obj (insertKey acc kp.1 vp.1), (skipJWs vp.2).tail)
              else none)
          else none)
      else none

/-- Elements of an array, positioned at an element. -/
def parseElems : Nat → List Char → List JValue → Option (JValue × List Char)
  | 0, _, _ => none
  | fuel + 1, s, acc =>
    (parseValue fuel s).bind (fun vp =>
      if (skipJWs vp.2).head? = some ',' then
        parseElems fuel (skipJWs (skipJWs vp.2).tail) (vp.1 :: acc)
      else if (skipJWs vp.2).head? = some ']' then
        some (JValue.arr (vp.1 :: acc).reverse, (skipJWs vp.2).tail)
      else none)

end

/-- `json.loads` model: whitespace around one value, nothing after. -/
def json_loads (s : List Char) : Option JValue :=
  match parseValue (s.length + 1) (skipJWs s) with
  | some (v, r) => if skipJWs r = [] then some v else none
  | none => none

/-! ## `ast.literal_eval` model (Literal Fallback Parser) -/

/-- Python literal string body after an opening quote `q`: the recognised
short escapes are decoded, backslash-newline is a line continuation, an
unknown escape keeps the backslash, and a raw line break is an error. -/
def litStrBody (q : Char) : List Char → List Char → Option (List Char × List Char)
  | [], _ => none
  | c :: rest, acc =>
    if c = q then some (acc.reverse, rest)
    else if c = bslash then
      match rest with
      | [] => none
      | e :: rest2 =>
        if e = 'n' then litStrBody q rest2 (nlc :: acc)
        else if e = 't' then litStrBody q rest2 (tabc :: acc)
        else if e = 'r' then litStrBody q rest2 (crc :: acc)
        else if e = 'b' then litStrBody q rest2 (bspc :: acc)
        else if e = 'f' then litStrBody q rest2 (ffc :: acc)
        else if e = 'v' then litStrBody q rest2 (vtc :: acc)
        else if e = 'a' then litStrBody q rest2 (Char.ofNat 7 :: acc)
        else if e = '0' then litStrBody q rest2 (Char.ofNat 0 :: acc)
        else if e = bslash then litStrBody q rest2 (bslash :: acc)
        else if e = squote then litStrBody q rest2 (squote :: acc)
        else if e = dquote then litStrBody q rest2 (dquote :: acc)
        else if e = nlc then litStrBody q rest2 acc
        else litStrBody q rest2 (e :: bslash :: acc)
    else if c = nlc || c = crc then none
    else litStrBody q rest (c :: acc)

/-- Python integer literal: digits, no leading zero unless all zeros;
fractions, exponents, underscores and imaginary suffixes are outside the
model and fail. -/
def litNum (s : List Char) : Option (JValue × List Char) :=
  let ds := s.takeWhile isDigitCh
  let r := s.dropWhile isDigitCh
  if ds = [] then none
  else if ds.head? = some '0' && !ds.all (· = '0') then none
  else
    match r with
    | c :: _ =>
      if c = '.' || c = 'e' || c = 'E' || c = '_' || c = 'j' then none
      else some (JValue.num (digitsToNat ds), r)
    | [] => some (JValue.num (digitsToNat ds), [])

mutual

/-- One permissive literal at the head of `s` (whitespace already
skipped): `None`/`True`/`False`, single- or double-quoted strings,
integers with optional unary minus, lists and dicts with optional trailing
commas.  Dict keys are restricted to string literals in the model. -/
def litValue : Nat → List Char → Option (JValue × List Char)
  | 0, _ => none
  | fuel + 1, s =>
    match s with
    | [] => none
    | c :: rest =>
      if c = squote || c = dquote then
        (litStrBody c rest []).map (fun p => (JValue.str p.1, p.2))
      else if c = obrace then
        match rest.dropWhile isPySpace with
        | [] => none
        | x :: t2 =>
          if x = cbrace then some (JValue.obj [], t2)
          else litMems fuel (x :: t2) []
      else if c = '[' then
        match rest.dropWhile isPySpace with
        | [] => none
        | x :: t2 =>
          if x = ']' then some (JValue.arr [], t2)
          else litElems fuel (x :: t2) []
      else if c = '-' then
        match litNum (rest.dropWhile isPySpace) with
        | some (JValue.num n, r) => some (JValue.num (-n), r)
        | _ => none
      else
        match s with
        | 'N' :: 'o' :: 'n' :: 'e' :: r => some (JValue.null, r)
        | 'T' :: 'r' :: 'u' :: 'e' :: r => some (JValue.bool true, r)
        | 'F' :: 'a' :: 'l' :: 's' :: 'e' :: r => some (JValue.bool false, r)
        | _ => litNum s

def litMems : Nat → List Char → List (List Char × JValue) → Option (JValue × List Char)
  | 0, _, _ => none
  | fuel + 1, s, acc =>
    match litValue fuel s with
    | some (JValue.str k, r) =>
      match r.dropWhile isPySpace with
      | ':' :: t2 =>
        match litValue fuel (t2.dropWhile isPySpace) with
        | some (v, r2) =>
          match r2.dropWhile isPySpace with
          | ',' :: t4 =>
            match t4.dropWhile isPySpace with
            | x :: t5 =>
              if x = cbrace then some (JValue.obj (insertKey acc k v), t5)
              else litMems fuel (x :: t5) (insertKey acc k v)
            | [] => none
          | x :: t4 =>
            if x = cbrace then some (JValue.obj (insertKey acc k v), t4) else none
          | [] => none
        | _ => none
      | _ => none
    | _ => none

def litElems : Nat → List Char → List JValue → Option (JValue × List Char)
  | 0, _, _ => none
  | fuel + 1, s, acc =>
    match litValue fuel s with
    | some (v, r) =>
      match r.dropWhile isPySpace with
      | ',' :: t2 =>
        match t2.dropWhile isPySpace with
        | x :: t3 =>
          if x = ']' then some (JValue.arr (v :: acc).reverse, t3)
          else litElems fuel (x :: t3) (v :: acc)
        | [] => none
      | x :: t2 =>
        if x = ']' then some (JValue.arr (v :: acc).reverse, t2) else none
      | [] => none
    | none => none

end

/-- `ast.literal_eval` model: one literal with whitespace around it. -/
def litParse (s : List Char) : Option JValue :=
  match litValue (s.length + 1) (s.dropWhile isPySpace) with
  | some (v, r) => if r.dropWhile isPySpace = [] then some v else none
  | none => none

/-- `try_literal_eval_object` from `views.py`: empty input and any parse
exception give Python `None`, i.e. `JValue.null`. -/
def try_literal_eval_object (raw : List Char) : JValue :=
  if raw = [] then JValue.null else
  match litParse (repair_json raw) with
  | some v => v
  | none => JValue.null

/-! ## Serialization (the canonical `json.dumps` text of a document) -/

def natDigitsF : Nat → Nat → List Char
  | 0, _ => []
  | fuel + 1, n =>
    if n < 10 then [hexDigit n]
    else natDigitsF fuel (n / 10) ++ [hexDigit (n % 10)]

def intChars (n : Int) : List Char :=
  if n < 0 then '-' :: natDigitsF (n.natAbs + 1) n.natAbs
  else natDigitsF (n.toNat + 1) n.toNat

mutual

/-- `json.dumps` with default separators, over the document type. -/
def dumps : JValue → List Char
  | .null => "null".toList
  | .bool true => "true".toList
  | .bool false => "false".toList
  | .num n => intChars n
  | .str s => json_dumps_string s
  | .arr l => '[' :: dumpElems l ++ [']']
  | .obj l => obrace :: dumpMems l ++ [cbrace]

def dumpElems : List JValue → List Char
  | [] => []
  | [x] => dumps x
  | x :: y :: t => dumps x ++ ',' :: ' ' :: dumpElems (y :: t)

def dumpMems : List (List Char × JValue) → List Char
  | [] => []
  | [(k, v)] => json_dumps_string k ++ ':' :: ' ' :: dumps v
  | (k, v) :: p :: t =>
    json_dumps_string k ++ ':' :: ' ' :: dumps v ++ ',' :: ' ' :: dumpMems (p :: t)

end

/-! ## `safe_json_loads` (Recovery Orchestrator) -/

/-- The return triple of `safe_json_loads`.  The Python function returns
`(parsed_obj, fixed_string_used, error_message_or_None)`; `value` is
`JValue.null` exactly when the Python first component is `None`. -/
structure SafeResult where
  value : JValue
  finalCandidate : List Char
  error : Option (List Char)

instance : DecidableEq SafeResult := fun a b => by
  cases a; cases b
  exact decidable_of_iff _ (iff_of_eq (SafeResult.mk.injEq ..)).symm

def emptyMsg : List Char := "Empty response".toList

/-- Abstraction of `str(e)` for the final parse exception: the claims only
use that the message is present, never its text. -/
def parseErrMsg : List Char := "Invalid JSON".toList

/-- `safe_json_loads` from `views.py`: extract, then the five strict parse
attempts in order, then the literal fallback. -/
def safe_json_loads (raw : List Char) : SafeResult :=
  if raw = [] then ⟨JValue.null, raw, some emptyMsg⟩ else
  let raw0 := extract_first_json_object raw
  match json_loads raw0 with
  | some v => ⟨v, raw0, none⟩
  | none =>
    let fixed1 := repair_json raw0
    match json_loads fixed1 with
    | some v => ⟨v, fixed1, none⟩
    | none =>
      let fixed2 := repair_json_times fixed1
      match json_loads fixed2 with
      | some v => ⟨v, fixed2, none⟩
      | none =>
        let fixed3 := fix_single_quotes_in_list fixed2
        match json_loads fixed3 with
        | some v => ⟨v, fixed3, none⟩
        | none =>
          let fixed4 := repair_multiline_value_string fixed3
          match json_loads fixed4 with
          | some v => ⟨v, fixed4, none⟩
          | none =>
            match try_literal_eval_object raw0 with
            | JValue.null => ⟨JValue.null, fixed4, some parseErrMsg⟩
            | obj => ⟨obj, fixed4, none⟩

/-- The five candidates in pipeline order: extracted, balanced, time-fixed,
single-quote-fixed, multiline-fixed. -/
def candidates (raw : List Char) : List (List Char) :=
  let raw0 := extract_first_json_object raw
  let fixed1 := repair_json raw0
  let fixed2 := repair_json_times fixed1
  let fixed3 := fix_single_quotes_in_list fixed2
  let fixed4 := repair_multiline_value_string fixed3
  [raw0, fixed1, fixed2, fixed3, fixed4]

/-- The result produced when every strict parse attempt has failed: the
literal fallback applied to the extractor's candidate, with the
multiline-fixed candidate as diagnostics. -/
def fallbackResult (raw : List Char) : SafeResult :=
  let raw0 := extract_first_json_object raw
  let fixed4 := repair_multiline_value_string
    (fix_single_quotes_in_list (repair_json_times (repair_json raw0)))
  match try_literal_eval_object raw0 with
  | JValue.null => ⟨JValue.null, fixed4, some parseErrMsg⟩
  | obj => ⟨obj, fixed4, none⟩

/-! ## Claim theorems: concrete recovery behaviours -/

/-- C6: on the input `\x7b"a": [1,2` (missing `]` and `\x7d`) the pipeline
succeeds with the structured value `\x7b"a": [1,2]\x7d`; the Delimiter
Balancer — which counts `[` against `]` and `\x7b` against `\x7d` over the
whole candidate, appends the deficit (`]` then `\x7d`) and truncates after
the last `\x7d` — produces exactly the text `\x7b"a": [1,2]\x7d`, which is
the successful (second) candidate, with no error. -/
theorem claim_C6 :
    safe_json_loads ("\x7b\"a\": [1,2".toList) =
      ⟨JValue.obj [("a".toList, JValue.arr [JValue.num 1, JValue.num 2])],
        "\x7b\"a\": [1,2]\x7d".toList, none⟩ ∧
    repair_json (extract_first_json_object ("\x7b\"a\": [1,2".toList)) =
      "\x7b\"a\": [1,2]\x7d".toList :=
  ⟨rfl, rfl⟩

/-- C7: on the input `\x7b"tags": ['a', 'dynasty's', 'b']\x7d` the pipeline
succeeds with the value `\x7b"tags": ["a", "dynasty's", "b"]\x7d`: every
single-quoted literal is rewritten double-quoted and the apostrophe between
the word characters `y` and `s` is kept as content, the successful (fourth)
candidate being the rewritten text. -/
theorem claim_C7 :
    safe_json_loads
        ("\x7b\"tags\": [".toList ++ squote :: 'a' :: squote :: ',' :: ' ' ::
          squote :: ("dynasty".toList ++ squote :: 's' :: squote :: ',' :: ' ' ::
            squote :: 'b' :: squote :: "]\x7d".toList)) =
      ⟨JValue.obj [("tags".toList, JValue.arr
          [JValue.str ['a'],
           JValue.str ("dynasty".toList ++ squote :: ['s']),
           JValue.str ['b']])],
        "\x7b\"tags\": [\"a\", \"dynasty".toList ++ squote ::
          "s\", \"b\"]\x7d".toList, none⟩ :=
  rfl

/-! ## Helper lemmas: candidates are nonempty, basic find inversions -/

theorem pyFind_drop {c : Char} : ∀ {l : List Char} {i : Nat}, pyFind c l = some i →
    ∃ t, l.drop i = c :: t ∧ c ∉ l.take i
  | [], i => by simp [pyFind]
  | x :: xs, i => by
    simp only [pyFind]
    split
    · rename_i hx
      intro h
      obtain rfl : i = 0 := by simpa using h.symm
      exact ⟨xs, by simpa using hx, by simp⟩
    · rename_i hx
      intro h
      obtain ⟨j, hj, rfl⟩ : ∃ j, pyFind c xs = some j ∧ i = j + 1 := by
        cases hfind : pyFind c xs with
        | none => simp [hfind] at h
        | some j => exact ⟨j, rfl, by simpa [hfind] using h.symm⟩
      obtain ⟨t, ht, hnot⟩ := pyFind_drop hj
      exact ⟨t, by simpa using ht, by simp [List.take_succ_cons, hnot, Ne.symm hx]⟩

theorem scanObj_pos : ∀ {s : List Char} {d : Int} {a b : Bool} {n : Nat},
    scanObj s d a b = some n → 1 ≤ n
  | [], _, _, _, _ => by simp [scanObj]
  | ch :: rest, d, a, b, n => by
    simp only [scanObj]
    split
    · split
      · intro h
        obtain ⟨k, -, rfl⟩ := Option.map_eq_some'.mp h
        omega
      · split
        · intro h
          obtain ⟨k, -, rfl⟩ := Option.map_eq_some'.mp h
          omega
        · split
          · intro h
            obtain ⟨k, -, rfl⟩ := Option.map_eq_some'.mp h
            omega
          · intro h
            obtain ⟨k, -, rfl⟩ := Option.map_eq_some'.mp h
            omega
    · split
      · intro h
        obtain ⟨k, -, rfl⟩ := Option.map_eq_some'.mp h
        omega
      · split
        · intro h
          obtain ⟨k, -, rfl⟩ := Option.map_eq_some'.mp h
          omega
        · split
          · split
            · intro h
              obtain rfl : n = 1 := by simpa using h.symm
              omega
            · intro h
              obtain ⟨k, -, rfl⟩ := Option.map_eq_some'.mp h
              omega
          · intro h
            obtain ⟨k, -, rfl⟩ := Option.map_eq_some'.mp h
            omega

theorem extract_ne_nil {raw : List Char} (h : raw ≠ []) :
    extract_first_json_object raw ≠ [] := by
  unfold extract_first_json_object
  rw [if_neg h]
  cases hf : pyFind obrace raw with
  | none => exact h
  | some start =>
    obtain ⟨t, ht, -⟩ := pyFind_drop hf
    simp only
    rw [ht]
    cases hs : scanObj (obrace :: t) 0 false false with
    | none => simp
    | some n =>
      have hn := scanObj_pos hs
      cases n with
      | zero => omega
      | succ m => simp [List.take_succ_cons]

theorem dropWhile_append_singleton {p : Char → Bool} {c : Char} (hc : ¬ p c = true)
    (l : List Char) : (l ++ [c]).dropWhile p = l.dropWhile p ++ [c] := by
  rw [List.dropWhile_append]
  split
  · rename_i he
    rw [List.isEmpty_iff] at he
    simp [he, List.dropWhile_cons_of_neg hc]
  · rfl

theorem pyStrip_cons_of_head (c : Char) (hc : ¬ isPySpace c = true) (t : List Char) :
    ∃ u, pyStrip (c :: t) = c :: u := by
  unfold pyStrip
  rw [List.dropWhile_cons_of_neg hc, List.reverse_cons,
    dropWhile_append_singleton hc, List.reverse_append]
  exact ⟨_, rfl⟩

theorem repairBrackets_cons (c : Char) (u : List Char) :
    ∃ w, repairBrackets (c :: u) = c :: w := by
  unfold repairBrackets
  split
  · exact ⟨_, rfl⟩
  · exact ⟨u, rfl⟩

theorem repairBraces_cons (c : Char) (u : List Char) :
    ∃ w, repairBraces (c :: u) = c :: w := by
  unfold repairBraces
  split
  · exact ⟨_, rfl⟩
  · exact ⟨u, rfl⟩

theorem repairTrunc_ne_nil (c : Char) (u : List Char) :
    repairTrunc (c :: u) ≠ [] := by
  unfold repairTrunc
  cases h : pyRFind cbrace (c :: u) with
  | none => simp
  | some last => simp [List.take_succ_cons]

theorem repair_json_ne_nil {raw : List Char} (h : raw ≠ []) :
    repair_json raw ≠ [] := by
  unfold repair_json
  rw [if_neg h]
  cases hf : pyFind obrace raw with
  | none => exact h
  | some start =>
    obtain ⟨t, ht, -⟩ := pyFind_drop hf
    simp only
    rw [ht]
    obtain ⟨u, hu⟩ := pyStrip_cons_of_head obrace (by decide) t
    rw [hu]
    obtain ⟨w1, hw1⟩ := repairBrackets_cons obrace u
    rw [hw1]
    obtain ⟨w2, hw2⟩ := repairBraces_cons obrace w1
    rw [hw2]
    exact repairTrunc_ne_nil obrace w2

theorem timeSubF_ne_nil : ∀ {fuel : Nat} {s : List Char}, s ≠ [] →
    timeSubF fuel s ≠ []
  | 0, s, h => h
  | fuel + 1, [], h => absurd rfl h
  | fuel + 1, c :: rest, _ => by
    unfold timeSubF
    cases hm : timeMatchAt (c :: rest) with
    | none => simp
    | some q =>
      obtain ⟨g1, g2, g3, r⟩ := q
      simp

theorem repair_json_times_ne_nil {raw : List Char} (h : raw ≠ []) :
    repair_json_times raw ≠ [] := by
  unfold repair_json_times
  rw [if_neg h]
  exact timeSubF_ne_nil h

theorem sqSubF_ne_nil : ∀ {fuel : Nat} {s : List Char}, s ≠ [] →
    sqSubF fuel s ≠ []
  | 0, s, h => h
  | fuel + 1, [], h => absurd rfl h
  | fuel + 1, c :: rest, _ => by
    unfold sqSubF
    split
    · cases hm : sqScan c rest with
      | none => simp
      | some q =>
        obtain ⟨g, r⟩ := q
        simp [sqRepl]
    · simp

theorem fix_single_quotes_ne_nil {raw : List Char} (h : raw ≠ []) :
    fix_single_quotes_in_list raw ≠ [] := by
  unfold fix_single_quotes_in_list
  rw [if_neg h]
  exact sqSubF_ne_nil h

theorem mlSubF_ne_nil : ∀ {fuel : Nat} {s : List Char}, s ≠ [] →
    mlSubF fuel s ≠ []
  | 0, s, h => h
  | fuel + 1, [], h => absurd rfl h
  | fuel + 1, c :: rest, _ => by
    unfold mlSubF
    cases hm : mlMatchAt (c :: rest) with
    | none => simp
    | some q =>
      obtain ⟨g1, inner, r⟩ := q
      simp [json_dumps_string]

theorem repair_multiline_ne_nil {raw : List Char} (h : raw ≠ []) :
    repair_multiline_value_string raw ≠ [] := by
  unfold repair_multiline_value_string
  rw [if_neg h]
  exact mlSubF_ne_nil h

/-! Stage-by-stage equations for `safe_json_loads`. -/

theorem safe_succ0 {raw : List Char} (h : raw ≠ []) {v : JValue}
    (e0 : json_loads (extract_first_json_object raw) = some v) :
    safe_json_loads raw = ⟨v, extract_first_json_object raw, none⟩ := by
  unfold safe_json_loads
  rw [if_neg h]
  simp only [e0]

theorem safe_succ1 {raw : List Char} (h : raw ≠ [])
    (e0 : json_loads (extract_first_json_object raw) = none) {v : JValue}
    (e1 : json_loads (repair_json (extract_first_json_object raw)) = some v) :
    safe_json_loads raw = ⟨v, repair_json (extract_first_json_object raw), none⟩ := by
  unfold safe_json_loads
  rw [if_neg h]
  simp only [e0, e1]

theorem safe_succ2 {raw : List Char} (h : raw ≠ [])
    (e0 : json_loads (extract_first_json_object raw) = none)
    (e1 : json_loads (repair_json (extract_first_json_object raw)) = none) {v : JValue}
    (e2 : json_loads (repair_json_times (repair_json (extract_first_json_object raw))) = some v) :
    safe_json_loads raw =
      ⟨v, repair_json_times (repair_json (extract_first_json_object raw)), none⟩ := by
  unfold safe_json_loads
  rw [if_neg h]
  simp only [e0, e1, e2]

theorem safe_succ3 {raw : List Char} (h : raw ≠ [])
    (e0 : json_loads (extract_first_json_object raw) = none)
    (e1 : json_loads (repair_json (extract_first_json_object raw)) = none)
    (e2 : json_loads (repair_json_times (repair_json (extract_first_json_object raw))) = none)
    {v : JValue}
    (e3 : json_loads (fix_single_quotes_in_list
      (repair_json_times (repair_json (extract_first_json_object raw)))) = some v) :
    safe_json_loads raw =
      ⟨v, fix_single_quotes_in_list
        (repair_json_times (repair_json (extract_first_json_object raw))), none⟩ := by
  unfold safe_json_loads
  rw [if_neg h]
  simp only [e0, e1, e2, e3]

theorem safe_succ4 {raw : List Char} (h : raw ≠ [])
    (e0 : json_loads (extract_first_json_object raw) = none)
    (e1 : json_loads (repair_json (extract_first_json_object raw)) = none)
    (e2 : json_loads (repair_json_times (repair_json (extract_first_json_object raw))) = none)
    (e3 : json_loads (fix_single_quotes_in_list
      (repair_json_times (repair_json (extract_first_json_object raw)))) = none)
    {v : JValue}
    (e4 : json_loads (repair_multiline_value_string (fix_single_quotes_in_list
      (repair_json_times (repair_json (extract_first_json_object raw))))) = some v) :
    safe_json_loads raw =
      ⟨v, repair_multiline_value_string (fix_single_quotes_in_list
        (repair_json_times (repair_json (extract_first_json_object raw)))), none⟩ := by
  unfold safe_json_loads
  rw [if_neg h]
  simp only [e0, e1, e2, e3, e4]

theorem safe_fail {raw : List Char} (h : raw ≠ [])
    (e0 : json_loads (extract_first_json_object raw) = none)
    (e1 : json_loads (repair_json (extract_first_json_object raw)) = none)
    (e2 : json_loads (repair_json_times (repair_json (extract_first_json_object raw))) = none)
    (e3 : json_loads (fix_single_quotes_in_list
      (repair_json_times (repair_json (extract_first_json_object raw)))) = none)
    (e4 : json_loads (repair_multiline_value_string (fix_single_quotes_in_list
      (repair_json_times (repair_json (extract_first_json_object raw))))) = none) :
    safe_json_loads raw = fallbackResult raw := by
  unfold safe_json_loads fallbackResult
  rw [if_neg h]
  simp only [e0, e1, e2, e3, e4]

theorem safe_error_value_null (raw : List Char) :
    (safe_json_loads raw).error.isSome → (safe_json_loads raw).value = JValue.null := by
  by_cases h : raw = []
  · subst h
    intro _
    rfl
  · cases e0 : json_loads (extract_first_json_object raw) with
    | some v => rw [safe_succ0 h e0]; simp
    | none =>
    cases e1 : json_loads (repair_json (extract_first_json_object raw)) with
    | some v => rw [safe_succ1 h e0 e1]; simp
    | none =>
    cases e2 : json_loads (repair_json_times (repair_json (extract_first_json_object raw))) with
    | some v => rw [safe_succ2 h e0 e1 e2]; simp
    | none =>
    cases e3 : json_loads (fix_single_quotes_in_list
        (repair_json_times (repair_json (extract_first_json_object raw)))) with
    | some v => rw [safe_succ3 h e0 e1 e2 e3]; simp
    | none =>
    cases e4 : json_loads (repair_multiline_value_string (fix_single_quotes_in_list
        (repair_json_times (repair_json (extract_first_json_object raw))))) with
    | some v => rw [safe_succ4 h e0 e1 e2 e3 e4]; simp
    | none =>
      rw [safe_fail h e0 e1 e2 e3 e4]
      unfold fallbackResult
      cases e5 : try_literal_eval_object (extract_first_json_object raw) <;> simp [e5]

theorem safe_candidate_ne_nil (raw : List Char) (h : raw ≠ []) :
    (safe_json_loads raw).finalCandidate ≠ [] := by
  have h0 := extract_ne_nil h
  have h1 := repair_json_ne_nil h0
  have h2 := repair_json_times_ne_nil h1
  have h3 := fix_single_quotes_ne_nil h2
  have h4 := repair_multiline_ne_nil h3
  cases e0 : json_loads (extract_first_json_object raw) with
  | some v => rw [safe_succ0 h e0]; exact h0
  | none =>
  cases e1 : json_loads (repair_json (extract_first_json_object raw)) with
  | some v => rw [safe_succ1 h e0 e1]; exact h1
  | none =>
  cases e2 : json_loads (repair_json_times (repair_json (extract_first_json_object raw))) with
  | some v => rw [safe_succ2 h e0 e1 e2]; exact h2
  | none =>
  cases e3 : json_loads (fix_single_quotes_in_list
      (repair_json_times (repair_json (extract_first_json_object raw)))) with
  | some v => rw [safe_succ3 h e0 e1 e2 e3]; exact h3
  | none =>
  cases e4 : json_loads (repair_multiline_value_string (fix_single_quotes_in_list
      (repair_json_times (repair_json (extract_first_json_object raw))))) with
  | some v => rw [safe_succ4 h e0 e1 e2 e3 e4]; exact h4
  | none =>
    rw [safe_fail h e0 e1 e2 e3 e4]
    unfold fallbackResult
    cases e5 : try_literal_eval_object (extract_first_json_object raw) <;>
      simp only [e5] <;> exact h4

/-- C3 (amended): a populated `error` always comes with the `None` value,
equivalently a non-`None` value always comes with `error = None`; and for
nonempty input the `finalCandidate` is a nonempty string.  The converse
direction of the original claim fails: a strict parse can succeed with the
document `null`, whose parsed value is Python `None` while `error` is
`None` too (see the counterexample). -/
theorem claim_C3 : ∀ raw : List Char,
    ((safe_json_loads raw).error.isSome → (safe_json_loads raw).value = JValue.null) ∧
    (raw ≠ [] → (safe_json_loads raw).finalCandidate ≠ []) :=
  fun raw => ⟨safe_error_value_null raw, safe_candidate_ne_nil raw⟩

/-- C3 counterexample: on input `null` the strict parse of the extracted
candidate succeeds with the value `null` — Python `None` — so the returned
triple has both a `None` value and a `None` error, refuting `value is None
iff error is non-None`. -/
theorem claim_C3_counterexample :
    ¬ (((safe_json_loads ("null".toList)).value = JValue.null) ↔
        (safe_json_loads ("null".toList)).error.isSome = true) := by
  decide

theorem claim_C3_witness :
    (safe_json_loads ("x".toList)).value = JValue.null ∧
    (safe_json_loads ("x".toList)).finalCandidate ≠ [] :=
  ⟨(claim_C3 ("x".toList)).1 (by decide), (claim_C3 ("x".toList)).2 (by decide)⟩

/-- C2: the pipeline is a total function — in this embedding
`safe_json_loads` returns a `(value, finalCandidate, error)` triple on
every input by construction, the caught parse exceptions being the `none`
results of `json_loads` and `litParse` — and whenever every stage fails
(all five strict parses and the literal fallback), the value is Python
`None` and the error is populated. -/
theorem claim_C2 : ∀ raw : List Char,
    (∀ s ∈ candidates raw, json_loads s = none) →
    try_literal_eval_object (extract_first_json_object raw) = JValue.null →
    (safe_json_loads raw).value = JValue.null ∧
      (safe_json_loads raw).error.isSome := by
  intro raw hall hlit
  by_cases h : raw = []
  · subst h
    exact ⟨rfl, rfl⟩
  · have e0 : json_loads (extract_first_json_object raw) = none :=
      hall _ (by simp [candidates])
    have e1 : json_loads (repair_json (extract_first_json_object raw)) = none :=
      hall _ (by simp [candidates])
    have e2 : json_loads (repair_json_times (repair_json
        (extract_first_json_object raw))) = none :=
      hall _ (by simp [candidates])
    have e3 : json_loads (fix_single_quotes_in_list (repair_json_times
        (repair_json (extract_first_json_object raw)))) = none :=
      hall _ (by simp [candidates])
    have e4 : json_loads (repair_multiline_value_string (fix_single_quotes_in_list
        (repair_json_times (repair_json (extract_first_json_object raw))))) = none :=
      hall _ (by simp [candidates])
    rw [safe_fail h e0 e1 e2 e3 e4]
    unfold fallbackResult
    simp [hlit]

/-- C2 witness: the spec's own probe input, arbitrary refusal prose. -/
theorem claim_C2_witness :
    (safe_json_loads ("I cannot comply with this request.".toList)).value = JValue.null ∧
    (safe_json_loads ("I cannot comply with this request.".toList)).error.isSome :=
  claim_C2 ("I cannot comply with this request.".toList) (by decide) (by decide)

/-- C9: whenever all five strict parse attempts fail, the pipeline's value
is exactly what the Literal Fallback produces from the Extractor's
candidate — `try_literal_eval_object` applied to
`extract_first_json_object raw`, not to any later candidate — while the
diagnostics carry the last (multiline-fixed) candidate; the whole result
coincides with `fallbackResult`, whose stages read each candidate from its
immediate predecessor only. -/
theorem claim_C9 : ∀ raw : List Char, raw ≠ [] →
    (∀ s ∈ candidates raw, json_loads s = none) →
    safe_json_loads raw = fallbackResult raw ∧
    (safe_json_loads raw).value =
      try_literal_eval_object (extract_first_json_object raw) ∧
    (safe_json_loads raw).finalCandidate =
      repair_multiline_value_string (fix_single_quotes_in_list
        (repair_json_times (repair_json (extract_first_json_object raw)))) := by
  intro raw h hall
  have e0 : json_loads (extract_first_json_object raw) = none :=
    hall _ (by simp [candidates])
  have e1 : json_loads (repair_json (extract_first_json_object raw)) = none :=
    hall _ (by simp [candidates])
  have e2 : json_loads (repair_json_times (repair_json
      (extract_first_json_object raw))) = none :=
    hall _ (by simp [candidates])
  have e3 : json_loads (fix_single_quotes_in_list (repair_json_times
      (repair_json (extract_first_json_object raw)))) = none :=
    hall _ (by simp [candidates])
  have e4 : json_loads (repair_multiline_value_string (fix_single_quotes_in_list
      (repair_json_times (repair_json (extract_first_json_object raw))))) = none :=
    hall _ (by simp [candidates])
  have hsf := safe_fail h e0 e1 e2 e3 e4
  refine ⟨hsf, ?_, ?_⟩ <;> rw [hsf] <;> unfold fallbackResult <;>
    cases e5 : try_literal_eval_object (extract_first_json_object raw) <;>
      simp [e5]

/-- C9 witness at the input `oops`: no stage parses, the fallback is
consulted on the extracted candidate and also fails. -/
theorem claim_C9_witness :
    safe_json_loads ("oops".toList) = fallbackResult ("oops".toList) ∧
    (safe_json_loads ("oops".toList)).value =
      try_literal_eval_object (extract_first_json_object ("oops".toList)) ∧
    (safe_json_loads ("oops".toList)).finalCandidate =
      repair_multiline_value_string (fix_single_quotes_in_list
        (repair_json_times (repair_json
          (extract_first_json_object ("oops".toList))))) :=
  claim_C9 ("oops".toList) (by decide) (by decide)

/-- C1: the orchestrator returns the value and candidate of the earliest
stage whose strict parse succeeds — the first success of `json_loads` over
the candidates in the fixed order extracted, balanced, time-fixed,
single-quote-fixed, multiline-fixed, with error `none` — and the literal
fallback result is returned only when that first-success search over all
five candidates is empty. -/
theorem claim_C1 :
    (∀ (raw : List Char) (v : JValue) (c : List Char),
        (candidates raw).findSome? (fun s => (json_loads s).map (fun v => (v, s))) =
          some (v, c) →
        safe_json_loads raw = ⟨v, c, none⟩) ∧
    (∀ raw : List Char, raw ≠ [] →
        (candidates raw).findSome? (fun s => (json_loads s).map (fun v => (v, s))) =
          none →
        safe_json_loads raw = fallbackResult raw) := by
  constructor
  · intro raw v c hfind
    have h : raw ≠ [] := by
      rintro rfl
      rw [show (candidates ([] : List Char)).findSome?
          (fun s => (json_loads s).map (fun v => (v, s))) = none from rfl] at hfind
      exact Option.noConfusion hfind
    cases e0 : json_loads (extract_first_json_object raw) with
    | some v0 =>
      simp only [candidates, List.findSome?_cons, e0, Option.map_some',
        Option.some.injEq, Prod.mk.injEq] at hfind
      rw [safe_succ0 h e0, hfind.1, hfind.2]
    | none =>
    cases e1 : json_loads (repair_json (extract_first_json_object raw)) with
    | some v1 =>
      simp only [candidates, List.findSome?_cons, e0, e1, Option.map_some',
        Option.map_none', Option.some.injEq, Prod.mk.injEq] at hfind
      rw [safe_succ1 h e0 e1, hfind.1, hfind.2]
    | none =>
    cases e2 : json_loads (repair_json_times (repair_json
        (extract_first_json_object raw))) with
    | some v2 =>
      simp only [candidates, List.findSome?_cons, e0, e1, e2, Option.map_some',
        Option.map_none', Option.some.injEq, Prod.mk.injEq] at hfind
      rw [safe_succ2 h e0 e1 e2, hfind.1, hfind.2]
    | none =>
    cases e3 : json_loads (fix_single_quotes_in_list (repair_json_times
        (repair_json (extract_first_json_object raw)))) with
    | some v3 =>
      simp only [candidates, List.findSome?_cons, e0, e1, e2, e3, Option.map_some',
        Option.map_none', Option.some.injEq, Prod.mk.injEq] at hfind
      rw [safe_succ3 h e0 e1 e2 e3, hfind.1, hfind.2]
    | none =>
    cases e4 : json_loads (repair_multiline_value_string (fix_single_quotes_in_list
        (repair_json_times (repair_json (extract_first_json_object raw))))) with
    | some v4 =>
      simp only [candidates, List.findSome?_cons, e0, e1, e2, e3, e4, Option.map_some',
        Option.map_none', Option.some.injEq, Prod.mk.injEq] at hfind
      rw [safe_succ4 h e0 e1 e2 e3 e4, hfind.1, hfind.2]
    | none =>
      simp only [candidates, List.findSome?_cons, e0, e1, e2, e3, e4,
        Option.map_none', List.findSome?_nil] at hfind
      exact Option.noConfusion hfind
  · intro raw h hfind
    cases e0 : json_loads (extract_first_json_object raw) with
    | some v0 => simp [candidates, List.findSome?_cons, e0] at hfind
    | none =>
    cases e1 : json_loads (repair_json (extract_first_json_object raw)) with
    | some v1 => simp [candidates, List.findSome?_cons, e0, e1] at hfind
    | none =>
    cases e2 : json_loads (repair_json_times (repair_json
        (extract_first_json_object raw))) with
    | some v2 => simp [candidates, List.findSome?_cons, e0, e1, e2] at hfind
    | none =>
    cases e3 : json_loads (fix_single_quotes_in_list (repair_json_times
        (repair_json (extract_first_json_object raw)))) with
    | some v3 => simp [candidates, List.findSome?_cons, e0, e1, e2, e3] at hfind
    | none =>
    cases e4 : json_loads (repair_multiline_value_string (fix_single_quotes_in_list
        (repair_json_times (repair_json (extract_first_json_object raw))))) with
    | some v4 => simp [candidates, List.findSome?_cons, e0, e1, e2, e3, e4] at hfind
    | none => exact safe_fail h e0 e1 e2 e3 e4

/-- C1 witness: prose before an object succeeds at the first (extracted)
candidate; the probe `oh` exercises the exhaustion branch. -/
theorem claim_C1_witness :
    safe_json_loads ("x\x7b\"a\": 1\x7d".toList) =
      ⟨JValue.obj [("a".toList, JValue.num 1)], "\x7b\"a\": 1\x7d".toList, none⟩ ∧
    safe_json_loads ("oh".toList) = fallbackResult ("oh".toList) :=
  ⟨claim_C1.1 ("x\x7b\"a\": 1\x7d".toList) (JValue.obj [("a".toList, JValue.num 1)])
      ("\x7b\"a\": 1\x7d".toList) (by decide),
    claim_C1.2 ("oh".toList) (by decide) (by decide)⟩

/-! ## C10: the Delimiter Balancer is idempotent -/

theorem pyFind_eq_none {c : Char} : ∀ {l : List Char}, pyFind c l = none ↔ c ∉ l
  | [] => by simp [pyFind]
  | x :: xs => by
    simp only [pyFind, List.mem_cons]
    split
    · rename_i hx
      subst hx
      simp
    · rename_i hx
      rw [Option.map_eq_none']
      rw [pyFind_eq_none]
      simp [Ne.symm hx]

theorem pyRFind_cons (c x : Char) (xs : List Char) :
    pyRFind c (x :: xs) =
      match pyRFind c xs with
      | some i => some (i + 1)
      | none => if x = c then some 0 else none := rfl

theorem pyRFind_eq_none (c : Char) : ∀ l : List Char, pyRFind c l = none ↔ c ∉ l
  | [] => by simp [pyRFind]
  | x :: xs => by
    rw [pyRFind_cons]
    cases h : pyRFind c xs with
    | some i =>
      have hmem : c ∈ xs := by
        by_contra hn
        rw [(pyRFind_eq_none c xs).mpr hn] at h
        exact Option.noConfusion h
      simp [hmem]
    | none =>
      have hn : c ∉ xs := (pyRFind_eq_none c xs).mp h
      by_cases hx : x = c
      · subst hx
        simp
      · simp [hx, hn, Ne.symm hx]

theorem pyRFind_drop (c : Char) : ∀ (l : List Char) (i : Nat), pyRFind c l = some i →
    ∃ t, l.drop i = c :: t ∧ c ∉ t
  | [], i => by simp [pyRFind]
  | x :: xs, i => by
    rw [pyRFind_cons]
    cases h : pyRFind c xs with
    | some j =>
      intro hi
      obtain rfl : i = j + 1 := by simpa using hi.symm
      obtain ⟨t, ht, hnt⟩ := pyRFind_drop c xs j h
      exact ⟨t, by simpa using ht, hnt⟩
    | none =>
      by_cases hx : x = c
      · subst hx
        intro hi
        obtain rfl : i = 0 := by simpa using hi.symm
        exact ⟨xs, rfl, (pyRFind_eq_none x xs).mp h⟩
      · simp [hx]

theorem pyRFind_getLast (c : Char) : ∀ l : List Char, l.getLast? = some c →
    pyRFind c l = some (l.length - 1)
  | [] => by simp
  | x :: xs => by
    intro h
    cases hxs : xs with
    | nil =>
      subst hxs
      obtain rfl : x = c := by simpa using h
      simp [pyRFind]
    | cons y ys =>
      rw [hxs] at h
      have hlast : (y :: ys).getLast? = some c := by
        rw [← h, List.getLast?_cons_cons]
      have hrec := pyRFind_getLast c (y :: ys) hlast
      rw [pyRFind_cons, hrec]
      simp

theorem pyRFind_append_not_mem {c : Char} {m : List Char} (hm : c ∉ m) :
    ∀ l : List Char, pyRFind c (l ++ m) = pyRFind c l
  | [] => by
    simp only [List.nil_append, pyRFind]
    exact (pyRFind_eq_none c m).mpr hm
  | x :: xs => by
    rw [List.cons_append, pyRFind_cons, pyRFind_cons,
      pyRFind_append_not_mem hm xs]

/-- The element at a found index: `l.take (i + 1)` ends with the found
character. -/
theorem take_succ_of_drop_cons {l t : List Char} {c : Char} {i : Nat}
    (h : l.drop i = c :: t) : l.take (i + 1) = l.take i ++ [c] := by
  have hlen : i < l.length := by
    by_contra hge
    rw [List.drop_eq_nil_of_le (by omega)] at h
    exact List.noConfusion h
  conv_lhs => rw [← List.take_append_drop i l, h]
  rw [List.take_append_eq_append_take, List.take_take]
  have h1 : min (i + 1) i = i := by omega
  have h2 : (List.take i l).length = i := by
    rw [List.length_take]
    omega
  rw [h1, h2]
  simp

theorem pyStrip_eq_self {c d : Char} {u : List Char}
    (hc : ¬ isPySpace c = true) (hd : ¬ isPySpace d = true)
    (hlast : (c :: u).getLast? = some d) : pyStrip (c :: u) = c :: u := by
  unfold pyStrip
  rw [List.dropWhile_cons_of_neg hc]
  have hrev : (c :: u).reverse.head? = some d := by
    rw [List.head?_reverse]
    exact hlast
  cases hrw : (c :: u).reverse with
  | nil => simp [hrw] at hrev
  | cons x xs =>
    rw [hrw] at hrev
    obtain rfl : x = d := by simpa using hrev
    rw [List.dropWhile_cons_of_neg hd, ← hrw, List.reverse_reverse]

/-- `repairBrackets` only appends `]` characters: brace counts and the
head are preserved, and nothing else changes when the count of `]` already
covers `[`. -/
theorem repairBrackets_eq_append (r : List Char) :
    ∃ k, repairBrackets r = r ++ List.replicate k ']' := by
  unfold repairBrackets
  split
  · exact ⟨_, rfl⟩
  · exact ⟨0, by simp⟩

theorem repairBraces_eq_append (r : List Char) :
    ∃ k, repairBraces r = r ++ List.replicate k cbrace := by
  unfold repairBraces
  split
  · exact ⟨_, rfl⟩
  · exact ⟨0, by simp⟩

theorem count_append_replicate (c x : Char) (hne : c ≠ x) (l : List Char) (k : Nat) :
    (l ++ List.replicate k x).count c = l.count c := by
  rw [List.count_append, List.count_replicate]
  simp [hne, Ne.symm hne]

/-- After `repairBraces`, closing braces cover opening braces. -/
theorem repairBraces_balanced (r : List Char) :
    (repairBraces r).count obrace ≤ (repairBraces r).count cbrace := by
  unfold repairBraces
  split
  · rename_i hlt
    rw [count_append_replicate obrace cbrace (by decide) r _,
      List.count_append, List.count_replicate]
    simp only [beq_self_eq_true, if_pos]
    omega
  · rename_i hge
    omega

/-- Shape of a repaired string: when the input contains an opening brace,
the output starts with `\x7b`, ends with `\x7d`, and its closing braces
cover its opening braces. -/
theorem repair_json_shape {s : List Char} (hs : obrace ∈ s) :
    ∃ u, repair_json s = obrace :: u ∧
      (repair_json s).getLast? = some cbrace ∧
      (repair_json s).count obrace ≤ (repair_json s).count cbrace := by
  have hne : s ≠ [] := by rintro rfl; simp at hs
  unfold repair_json
  rw [if_neg hne]
  cases hf : pyFind obrace s with
  | none => exact absurd (pyFind_eq_none.mp hf) (by simpa using hs)
  | some start =>
    simp only
    obtain ⟨t, ht, -⟩ := pyFind_drop hf
    rw [ht]
    obtain ⟨u0, hu0⟩ := pyStrip_cons_of_head obrace (by decide) t
    rw [hu0]
    have hbal : (repairBraces (repairBrackets (obrace :: u0))).count obrace ≤
        (repairBraces (repairBrackets (obrace :: u0))).count cbrace :=
      repairBraces_balanced _
    obtain ⟨w, hw⟩ : ∃ w, repairBraces (repairBrackets (obrace :: u0)) = obrace :: w := by
      obtain ⟨k1, hk1⟩ := repairBrackets_eq_append (obrace :: u0)
      obtain ⟨k2, hk2⟩ := repairBraces_eq_append (repairBrackets (obrace :: u0))
      rw [hk2, hk1]
      exact ⟨u0 ++ List.replicate k1 ']' ++ List.replicate k2 cbrace, by simp⟩
    rw [hw] at hbal ⊢
    have hc1 : 1 ≤ (obrace :: w).count obrace := by
      simp [List.count_cons]
    have hcb : 1 ≤ (obrace :: w).count cbrace := le_trans hc1 hbal
    have hmem : cbrace ∈ obrace :: w := by
      by_contra hnm
      rw [List.count_eq_zero_of_not_mem hnm] at hcb
      omega
    cases hrf : pyRFind cbrace (obrace :: w) with
    | none => exact absurd hmem ((pyRFind_eq_none cbrace (obrace :: w)).mp hrf)
    | some last =>
      unfold repairTrunc
      simp only [hrf]
      obtain ⟨tl, htl, hntl⟩ := pyRFind_drop cbrace (obrace :: w) last hrf
      have htake := take_succ_of_drop_cons htl
      have hshape : ∃ u, (obrace :: w).take (last + 1) = obrace :: u := by
        cases last with
        | zero =>
          exfalso
          simp only [List.drop_zero] at htl
          have : obrace = cbrace := by
            have := congrArg List.head? htl
            simpa using this
          exact absurd this (by decide)
        | succ m =>
          rw [List.take_succ_cons]
          exact ⟨_, rfl⟩
      obtain ⟨u, hu⟩ := hshape
      refine ⟨u, hu, ?_, ?_⟩
      · rw [htake]
        exact List.getLast?_concat _
      · have hsplit : (obrace :: w).count cbrace =
            ((obrace :: w).take (last + 1)).count cbrace +
            ((obrace :: w).drop (last + 1)).count cbrace := by
          conv_lhs => rw [← List.take_append_drop (last + 1) (obrace :: w)]
          rw [List.count_append]
        have hdrop1 : (obrace :: w).drop (last + 1) = tl := by
          have hdd : (obrace :: w).drop (last + 1) = ((obrace :: w).drop last).drop 1 := by
            rw [List.drop_drop]
          rw [hdd, htl]
          rfl
        have hzero : ((obrace :: w).drop (last + 1)).count cbrace = 0 := by
          rw [hdrop1]
          exact List.count_eq_zero_of_not_mem hntl
        have hcnt : ((obrace :: w).take (last + 1)).count cbrace =
            (obrace :: w).count cbrace := by omega
        have hle : ((obrace :: w).take (last + 1)).count obrace ≤
            (obrace :: w).count obrace :=
          (List.take_sublist _ _).count_le _
        rw [hcnt]
        exact le_trans hle hbal

/-- A string of the repaired shape is a fixed point of `repair_json`. -/
theorem repair_json_fixed {u : List Char}
    (hlast : (obrace :: u).getLast? = some cbrace)
    (hbal : (obrace :: u).count obrace ≤ (obrace :: u).count cbrace) :
    repair_json (obrace :: u) = obrace :: u := by
  unfold repair_json
  rw [if_neg (by simp)]
  have hf : pyFind obrace (obrace :: u) = some 0 := by simp [pyFind]
  rw [hf]
  simp only [List.drop_zero]
  rw [pyStrip_eq_self (by decide) (by decide) hlast]
  obtain ⟨k1, hk1⟩ := repairBrackets_eq_append (obrace :: u)
  rw [hk1]
  have hcnt_o : ((obrace :: u) ++ List.replicate k1 ']').count obrace =
      (obrace :: u).count obrace := count_append_replicate _ _ (by decide) _ _
  have hcnt_c : ((obrace :: u) ++ List.replicate k1 ']').count cbrace =
      (obrace :: u).count cbrace := count_append_replicate _ _ (by decide) _ _
  have hbr : repairBraces ((obrace :: u) ++ List.replicate k1 ']') =
      (obrace :: u) ++ List.replicate k1 ']' := by
    unfold repairBraces
    rw [if_neg]
    rw [hcnt_o, hcnt_c]
    omega
  rw [hbr]
  unfold repairTrunc
  have hnm : cbrace ∉ List.replicate k1 ']' := by
    intro hmm
    rw [List.mem_replicate] at hmm
    exact absurd hmm.2 (by decide)
  have hrf : pyRFind cbrace ((obrace :: u) ++ List.replicate k1 ']') =
      some ((obrace :: u).length - 1) := by
    rw [pyRFind_append_not_mem hnm _]
    exact pyRFind_getLast cbrace _ hlast
  simp only [hrf]
  have hlen : (obrace :: u).length - 1 + 1 = (obrace :: u).length := by
    simp
  rw [hlen, List.take_left]

/-- C10: `repair_json` is idempotent, and on any input containing an
opening brace its output starts with `\x7b` and ends with `\x7d` (so a
second count-append-truncate pass changes nothing). -/
theorem claim_C10 : ∀ s : List Char,
    repair_json (repair_json s) = repair_json s ∧
    (obrace ∈ s →
      (repair_json s).head? = some obrace ∧
      (repair_json s).getLast? = some cbrace) := by
  intro s
  by_cases hmem : obrace ∈ s
  · obtain ⟨u, hu, hlast, hbal⟩ := repair_json_shape hmem
    refine ⟨?_, fun _ => ⟨?_, ?_⟩⟩
    · rw [hu]
      exact repair_json_fixed (hu ▸ hlast) (hu ▸ hbal)
    · rw [hu]
      rfl
    · exact hlast
  · have : repair_json s = s := by
      unfold repair_json
      split
      · rfl
      · cases hf : pyFind obrace s with
        | none => rfl
        | some start =>
          obtain ⟨t, ht, -⟩ := pyFind_drop hf
          exact absurd (ht ▸ List.mem_cons_self obrace t) (by
            intro hin
            exact hmem (List.mem_of_mem_drop hin))
    rw [this, this]
    exact ⟨rfl, fun h => absurd h hmem⟩

/-- C10 witness: a concrete unbalanced input with junk before and after. -/
theorem claim_C10_witness :
    repair_json (repair_json ("ok \x7b\"a\": [1 junk".toList)) =
      repair_json ("ok \x7b\"a\": [1 junk".toList) ∧
    (repair_json ("ok \x7b\"a\": [1 junk".toList)).head? = some obrace ∧
    (repair_json ("ok \x7b\"a\": [1 junk".toList)).getLast? = some cbrace :=
  ⟨(claim_C10 ("ok \x7b\"a\": [1 junk".toList)).1,
    (claim_C10 ("ok \x7b\"a\": [1 junk".toList)).2 (by decide)⟩

/-! ## Serializer/parser agreement: digits, hex and characters -/

theorem char_ne_of_toNat_ne {c d : Char} (h : c.toNat ≠ d.toNat) : c ≠ d :=
  fun hc => h (congrArg Char.toNat hc)

theorem char_toNat_valid (c : Char) :
    c.toNat < 0xd800 ∨ (0xdfff < c.toNat ∧ c.toNat < 0x110000) := c.valid

theorem hexVal_hexDigit : ∀ m : Nat, m < 16 → hexVal (hexDigit m) = some m := by
  decide

theorem hexDigit_ne_specials : ∀ m : Nat, m < 16 →
    hexDigit m ≠ dquote ∧ hexDigit m ≠ bslash := by
  decide

theorem hex4_toHex4 {u : Nat} (h : u < 0x10000) :
    hex4 (hexDigit (u / 4096 % 16)) (hexDigit (u / 256 % 16))
      (hexDigit (u / 16 % 16)) (hexDigit (u % 16)) = some u := by
  unfold hex4
  rw [hexVal_hexDigit (u / 4096 % 16) (Nat.mod_lt _ (by omega)),
    hexVal_hexDigit (u / 256 % 16) (Nat.mod_lt _ (by omega)),
    hexVal_hexDigit (u / 16 % 16) (Nat.mod_lt _ (by omega)),
    hexVal_hexDigit (u % 16) (Nat.mod_lt _ (by omega))]
  simp only [Option.some.injEq]
  omega

theorem digit_facts : ∀ m : Nat, m < 10 →
    isDigitCh (hexDigit m) = true ∧ (hexDigit m).toNat - 48 = m ∧
      (m ≠ 0 → hexDigit m ≠ '0') := by
  decide

theorem natDigitsF_spec : ∀ (fuel n : Nat), n < fuel →
    (∀ d ∈ natDigitsF fuel n, isDigitCh d = true) ∧
    digitsToNat (natDigitsF fuel n) = n ∧
    natDigitsF fuel n ≠ [] ∧
    (1 ≤ n → (natDigitsF fuel n).head? ≠ some '0') := by
  intro fuel
  induction fuel with
  | zero => intro n h; omega
  | succ m ih =>
    intro n h
    unfold natDigitsF
    by_cases hn : n < 10
    · rw [if_pos hn]
      obtain ⟨hd1, hd2, hd3⟩ := digit_facts n hn
      refine ⟨by simpa using hd1, ?_, by simp, ?_⟩
      · unfold digitsToNat
        simp [List.foldl_cons]
        omega
      · intro h1
        simpa using hd3 (by omega)
    · rw [if_neg hn]
      obtain ⟨ih1, ih2, ih3, ih4⟩ := ih (n / 10) (by omega)
      obtain ⟨hd1, hd2, -⟩ := digit_facts (n % 10) (Nat.mod_lt _ (by omega))
      refine ⟨?_, ?_, by simp, ?_⟩
      · intro d hd
        rcases List.mem_append.mp hd with hmem | hmem
        · exact ih1 d hmem
        · obtain rfl : d = hexDigit (n % 10) := by simpa using hmem
          exact hd1
      · unfold digitsToNat
        rw [List.foldl_append]
        have hval : List.foldl (fun a c => a * 10 + (c.toNat - 48)) 0
            (natDigitsF m (n / 10)) = n / 10 := ih2
        simp [hval]
        omega
      · intro _
        cases hlist : natDigitsF m (n / 10) with
        | nil => exact absurd hlist ih3
        | cons d ds =>
          have := ih4 (by omega)
          rw [hlist] at this
          simpa using this

theorem digitsToNat_eq (ds : List Char) :
    digitsToNat ds = ds.foldl (fun a c => a * 10 + (c.toNat - 48)) 0 := rfl

/-- Splitting a digit run followed by a non-digit: `takeWhile`/`dropWhile`
stop exactly at the boundary. -/
theorem takeWhile_digits_append {ds : List Char} (hds : ∀ d ∈ ds, isDigitCh d = true)
    {rest : List Char} (hrest : ∀ c, rest.head? = some c → isDigitCh c = false) :
    (ds ++ rest).takeWhile isDigitCh = ds ∧ (ds ++ rest).dropWhile isDigitCh = rest := by
  induction ds with
  | nil =>
    simp only [List.nil_append]
    cases rest with
    | nil => simp
    | cons c t =>
      have := hrest c rfl
      rw [List.takeWhile_cons, List.dropWhile_cons, this]
      simp
  | cons d ds ih =>
    have hd : isDigitCh d = true := hds d (by simp)
    obtain ⟨ih1, ih2⟩ := ih (fun x hx => hds x (by simp [hx]))
    rw [List.cons_append, List.takeWhile_cons, List.dropWhile_cons, hd]
    simp [ih1, ih2]

/-- `rest` is safe to follow a serialized number: it does not begin with a
digit, a decimal point or an exponent letter. -/
def NumSafe (rest : List Char) : Prop :=
  ∀ c, rest.head? = some c →
    isDigitCh c = false ∧ c ≠ '.' ∧ c ≠ 'e' ∧ c ≠ 'E'

theorem parseUNum_digits {n : Nat} {rest : List Char} (hsafe : NumSafe rest)
    {fuel : Nat} (hfuel : n < fuel) :
    parseUNum (natDigitsF fuel n ++ rest) = some (n, rest) := by
  obtain ⟨h1, h2, h3, h4⟩ := natDigitsF_spec fuel n hfuel
  have hrest : ∀ c, rest.head? = some c → isDigitCh c = false :=
    fun c hc => (hsafe c hc).1
  obtain ⟨htake, hdrop⟩ := takeWhile_digits_append h1 hrest
  unfold parseUNum
  rw [htake, hdrop, if_neg h3]
  have hlead : ¬ (1 < (natDigitsF fuel n).length ∧
      (natDigitsF fuel n).head? = some '0') := by
    rintro ⟨hlen, hhead⟩
    by_cases hn1 : 1 ≤ n
    · exact h4 hn1 hhead
    · have hn0 : n = 0 := by omega
      subst hn0
      cases fuel with
      | zero => omega
      | succ m => simp [natDigitsF] at hlen
  rw [if_neg (by simpa using hlead)]
  cases hr : rest with
  | nil => simp [h2]
  | cons c t =>
    obtain ⟨-, hdot, he, hE⟩ := hsafe c (by simp [hr])
    simp only [h2, hdot, he, hE]
    rw [if_neg (by simp [hdot, he, hE])]

theorem intChars_head_digit_or_minus (i : Int) :
    ∃ c t, intChars i = c :: t ∧ (isDigitCh c = true ∨ c = '-') := by
  unfold intChars
  split
  · exact ⟨'-', _, rfl, Or.inr rfl⟩
  · obtain ⟨h1, -, h3, -⟩ := natDigitsF_spec (i.toNat + 1) i.toNat (by omega)
    cases hlist : natDigitsF (i.toNat + 1) i.toNat with
    | nil => exact absurd hlist h3
    | cons c t =>
      exact ⟨c, t, rfl, Or.inl (h1 c (by simp [hlist]))⟩

theorem parseNum_cons (c : Char) (t : List Char) :
    parseNum (c :: t) =
      if c = '-' then (parseUNum t).map (fun p => (-(p.1 : Int), p.2))
      else (parseUNum (c :: t)).map (fun p => ((p.1 : Int), p.2)) := rfl

theorem parseNum_intChars {i : Int} {rest : List Char} (hsafe : NumSafe rest) :
    parseNum (intChars i ++ rest) = some (i, rest) := by
  by_cases hneg : i < 0
  · have hich : intChars i = '-' :: natDigitsF (i.natAbs + 1) i.natAbs := by
      unfold intChars
      rw [if_pos hneg]
    rw [hich, List.cons_append]
    rw [parseNum_cons, if_pos rfl, parseUNum_digits hsafe (by omega)]
    simp only [Option.map_some']
    have hv : (-(i.natAbs : Int)) = i := by omega
    rw [hv]
  · have hich : intChars i = natDigitsF (i.toNat + 1) i.toNat := by
      unfold intChars
      rw [if_neg hneg]
    obtain ⟨h1, -, h3, -⟩ := natDigitsF_spec (i.toNat + 1) i.toNat (by omega)
    have hpu : parseUNum (natDigitsF (i.toNat + 1) i.toNat ++ rest) =
        some (i.toNat, rest) := parseUNum_digits hsafe (by omega)
    cases hlist : natDigitsF (i.toNat + 1) i.toNat with
    | nil => exact absurd hlist h3
    | cons c t =>
      have hcd : isDigitCh c = true := h1 c (by simp [hlist])
      have hcm : ¬ c = '-' := by
        intro hc
        subst hc
        exact absurd hcd (by decide)
      rw [hich, hlist, List.cons_append]
      rw [parseNum_cons, if_neg hcm]
      rw [hlist, List.cons_append] at hpu
      rw [hpu]
      simp only [Option.map_some']
      have hv : ((i.toNat : Int)) = i := by omega
      rw [hv]

/-! ## String escape/parse roundtrip -/

set_option maxHeartbeats 2000000

/-- Unfolding `parseStrBody` at a `\uXXXX` escape. -/
theorem parseStrBody_u4 (a b c2 d : Char) (rest acc : List Char) :
    parseStrBody (bslash :: 'u' :: a :: b :: c2 :: d :: rest) acc =
      (if (hex4 a b c2 d).isSome then
        if 0xD800 ≤ (hex4 a b c2 d).getD 0 ∧ (hex4 a b c2 d).getD 0 < 0xDC00 then
          match rest with
          | x :: y :: a2 :: b2 :: c3 :: d2 :: rest4 =>
            if x = bslash then
              if y = 'u' then
                if (hex4 a2 b2 c3 d2).isSome then
                  if 0xDC00 ≤ (hex4 a2 b2 c3 d2).getD 0 ∧
                      (hex4 a2 b2 c3 d2).getD 0 < 0xE000 then
                    parseStrBody rest4
                      (Char.ofNat (0x10000 +
                        ((hex4 a b c2 d).getD 0 - 0xD800) * 0x400 +
                        ((hex4 a2 b2 c3 d2).getD 0 - 0xDC00)) :: acc)
                  else none
                else none
              else none
            else none
          | _ => none
        else if 0xDC00 ≤ (hex4 a b c2 d).getD 0 ∧
            (hex4 a b c2 d).getD 0 < 0xE000 then none
        else parseStrBody rest (Char.ofNat ((hex4 a b c2 d).getD 0) :: acc)
      else none) := by
  conv_lhs => rw [parseStrBody.eq_def]
  simp +decide

/-- Parsing one serialized character consumes exactly its escape and pushes
the character. -/
theorem encodeStep (c : Char) (rest acc : List Char) :
    parseStrBody (encodeChar c ++ rest) acc = parseStrBody rest (c :: acc) := by
  by_cases h1 : c = dquote
  · subst h1
    rw [show encodeChar dquote = [bslash, dquote] from by decide, List.cons_append,
      List.cons_append, List.nil_append]
    conv_lhs => rw [parseStrBody.eq_def]
    simp +decide
  by_cases h2 : c = bslash
  · subst h2
    rw [show encodeChar bslash = [bslash, bslash] from by decide, List.cons_append,
      List.cons_append, List.nil_append]
    conv_lhs => rw [parseStrBody.eq_def]
    simp +decide
  by_cases h3 : c = nlc
  · subst h3
    rw [show encodeChar nlc = [bslash, 'n'] from by decide, List.cons_append,
      List.cons_append, List.nil_append]
    conv_lhs => rw [parseStrBody.eq_def]
    simp +decide
  by_cases h4 : c = tabc
  · subst h4
    rw [show encodeChar tabc = [bslash, 't'] from by decide, List.cons_append,
      List.cons_append, List.nil_append]
    conv_lhs => rw [parseStrBody.eq_def]
    simp +decide
  by_cases h5 : c = crc
  · subst h5
    rw [show encodeChar crc = [bslash, 'r'] from by decide, List.cons_append,
      List.cons_append, List.nil_append]
    conv_lhs => rw [parseStrBody.eq_def]
    simp +decide
  by_cases h6 : c = bspc
  · subst h6
    rw [show encodeChar bspc = [bslash, 'b'] from by decide, List.cons_append,
      List.cons_append, List.nil_append]
    conv_lhs => rw [parseStrBody.eq_def]
    simp +decide
  by_cases h7 : c = ffc
  · subst h7
    rw [show encodeChar ffc = [bslash, 'f'] from by decide, List.cons_append,
      List.cons_append, List.nil_append]
    conv_lhs => rw [parseStrBody.eq_def]
    simp +decide
  by_cases hctl : c.toNat < 0x20
  · have hec : encodeChar c = bslash :: 'u' :: toHex4 c.toNat := by
      unfold encodeChar
      rw [if_neg h1, if_neg h2, if_neg h3, if_neg h4, if_neg h5, if_neg h6,
        if_neg h7, if_pos hctl]
    rw [hec]
    simp only [toHex4, List.cons_append, List.nil_append]
    rw [parseStrBody_u4]
    simp only [hex4_toHex4 (show c.toNat < 0x10000 by omega), Option.isSome_some,
      Option.getD_some]
    rw [if_pos trivial, if_neg (by omega), if_neg (by omega), Char.ofNat_toNat]
  by_cases hplain : c.toNat < 0x7F
  · have hec : encodeChar c = [c] := by
      unfold encodeChar
      rw [if_neg h1, if_neg h2, if_neg h3, if_neg h4, if_neg h5, if_neg h6,
        if_neg h7, if_neg hctl, if_pos hplain]
    rw [hec, List.cons_append, List.nil_append]
    conv_lhs => rw [parseStrBody.eq_def]
    simp only []
    rw [if_neg h1, if_neg h2, if_neg hctl]
  by_cases hbmp : c.toNat < 0x10000
  · have hec : encodeChar c = bslash :: 'u' :: toHex4 c.toNat := by
      unfold encodeChar
      rw [if_neg h1, if_neg h2, if_neg h3, if_neg h4, if_neg h5, if_neg h6,
        if_neg h7, if_neg hctl, if_neg hplain, if_pos hbmp]
    have hval := char_toNat_valid c
    rw [hec]
    simp only [toHex4, List.cons_append, List.nil_append]
    rw [parseStrBody_u4]
    simp only [hex4_toHex4 hbmp, Option.isSome_some, Option.getD_some]
    rw [if_pos trivial, if_neg (by omega), if_neg (by omega), Char.ofNat_toNat]
  · have hec : encodeChar c =
        (bslash :: 'u' :: toHex4 (0xD800 + (c.toNat - 0x10000) / 0x400)) ++
          (bslash :: 'u' :: toHex4 (0xDC00 + (c.toNat - 0x10000) % 0x400)) := by
      unfold encodeChar
      rw [if_neg h1, if_neg h2, if_neg h3, if_neg h4, if_neg h5, if_neg h6,
        if_neg h7, if_neg hctl, if_neg hplain, if_neg hbmp]
    have hval := char_toNat_valid c
    obtain ⟨v, hv⟩ : ∃ v, c.toNat = v + 0x10000 := ⟨c.toNat - 0x10000, by omega⟩
    have hvlt : v < 0x100000 := by omega
    have hdiv : v / 0x400 < 0x400 := by omega
    have hhi : 0xD800 + (c.toNat - 0x10000) / 0x400 = 0xD800 + v / 0x400 := by
      omega
    have hlo : 0xDC00 + (c.toNat - 0x10000) % 0x400 = 0xDC00 + v % 0x400 := by
      omega
    rw [hec, hhi, hlo]
    simp only [toHex4, List.cons_append, List.nil_append]
    rw [parseStrBody_u4]
    simp only [hex4_toHex4 (show 0xD800 + v / 0x400 < 0x10000 by omega),
      Option.isSome_some, Option.getD_some]
    rw [if_pos trivial, if_pos (by omega)]
    rw [if_pos trivial, if_pos trivial]
    simp only [hex4_toHex4 (show 0xDC00 + v % 0x400 < 0x10000 by omega),
      Option.isSome_some, Option.getD_some]
    rw [if_pos trivial, if_pos (by omega)]
    have hchar : 0x10000 + (0xD800 + v / 0x400 - 0xD800) * 0x400 +
        (0xDC00 + v % 0x400 - 0xDC00) = c.toNat := by
      have hvm := Nat.div_add_mod v 0x400
      omega
    rw [hchar, Char.ofNat_toNat]

/-- Roundtrip of a whole serialized string body. -/
theorem parseStrBody_escape : ∀ (cs rest acc : List Char),
    parseStrBody (escapeChars cs ++ dquote :: rest) acc =
      some (acc.reverse ++ cs, rest)
  | [], rest, acc => by
    simp only [escapeChars, List.nil_append]
    conv_lhs => rw [parseStrBody.eq_def]
    simp +decide
  | c :: cs, rest, acc => by
    have hassoc : escapeChars (c :: cs) ++ dquote :: rest =
        encodeChar c ++ (escapeChars cs ++ dquote :: rest) := by
      simp [escapeChars, List.append_assoc]
    rw [hassoc, encodeStep c _ acc, parseStrBody_escape cs rest (c :: acc)]
    simp

/-! ## Value-level roundtrip: the strict parser accepts serialized documents -/

theorem skipJWs_cons_of_neg {c : Char} (h : isJsonWs c = false) (t : List Char) :
    skipJWs (c :: t) = c :: t := by
  simp [skipJWs, List.dropWhile_cons, h]

theorem skipJWs_cons_of_pos {c : Char} (h : isJsonWs c = true) (t : List Char) :
    skipJWs (c :: t) = skipJWs t := by
  simp [skipJWs, List.dropWhile_cons, h]

theorem NumSafe_cons {c : Char}
    (h : isDigitCh c = false ∧ c ≠ '.' ∧ c ≠ 'e' ∧ c ≠ 'E') (t : List Char) :
    NumSafe (c :: t) := by
  intro d hd
  simp only [List.head?_cons, Option.some.injEq] at hd
  subst hd
  exact h

theorem NumSafe_nil : NumSafe [] := by
  intro d hd
  simp at hd

theorem ne_of_digit_range {c : Char} (h48 : 48 ≤ c.toNat) (h57 : c.toNat ≤ 57)
    {d : Char} (hd : d.toNat < 48 ∨ 57 < d.toNat) : c ≠ d :=
  char_ne_of_toNat_ne (by omega)

theorem isJsonWs_false_of_ne {c : Char} (h1 : c ≠ ' ') (h2 : c ≠ tabc)
    (h3 : c ≠ nlc) (h4 : c ≠ crc) : isJsonWs c = false := by
  simp [isJsonWs, h1, h2, h3, h4]

/-- Every serialized value starts with a non-whitespace character which is
not a closing bracket or brace. -/
theorem dumps_head (v : JValue) :
    ∃ c t, dumps v = c :: t ∧ isJsonWs c = false ∧ c ≠ ']' ∧ c ≠ cbrace := by
  cases v with
  | null => exact ⟨_, _, rfl, by decide, by decide, by decide⟩
  | bool b => cases b <;> exact ⟨_, _, rfl, by decide, by decide, by decide⟩
  | num i =>
    obtain ⟨c, t, hct, hc⟩ := intChars_head_digit_or_minus i
    have hd : dumps (JValue.num i) = c :: t := by
      rw [show dumps (JValue.num i) = intChars i from rfl, hct]
    rcases hc with hdg | rfl
    · have hb : 48 ≤ c.toNat ∧ c.toNat ≤ 57 := by simpa [isDigitCh] using hdg
      exact ⟨c, t, hd,
        isJsonWs_false_of_ne (ne_of_digit_range hb.1 hb.2 (by decide))
          (ne_of_digit_range hb.1 hb.2 (by decide))
          (ne_of_digit_range hb.1 hb.2 (by decide))
          (ne_of_digit_range hb.1 hb.2 (by decide)),
        ne_of_digit_range hb.1 hb.2 (by decide),
        ne_of_digit_range hb.1 hb.2 (by decide)⟩
    · exact ⟨'-', t, hd, by decide, by decide, by decide⟩
  | str s => exact ⟨dquote, _, rfl, by decide, by decide, by decide⟩
  | arr l => exact ⟨'[', _, rfl, by decide, by decide, by decide⟩
  | obj l => exact ⟨obrace, _, rfl, by decide, by decide, by decide⟩

theorem dumps_length_pos (v : JValue) : 1 ≤ (dumps v).length := by
  obtain ⟨c, t, h, -, -, -⟩ := dumps_head v
  rw [h]
  simp

theorem dumpElems_cons_eq (x : JValue) (xs : List JValue) :
    ∃ u, dumpElems (x :: xs) = dumps x ++ u := by
  cases xs with
  | nil => exact ⟨[], by simp [dumpElems]⟩
  | cons y t => exact ⟨',' :: ' ' :: dumpElems (y :: t), rfl⟩

theorem dumpElems_head (x : JValue) (xs : List JValue) :
    ∃ c t2, dumpElems (x :: xs) = c :: t2 ∧ isJsonWs c = false ∧ c ≠ ']' ∧ c ≠ cbrace := by
  obtain ⟨u, hu⟩ := dumpElems_cons_eq x xs
  obtain ⟨c, t, hct, h1, h2, h3⟩ := dumps_head x
  exact ⟨c, t ++ u, by rw [hu, hct, List.cons_append], h1, h2, h3⟩

theorem dumpMems_head (m : List Char × JValue) (ms : List (List Char × JValue)) :
    ∃ u, dumpMems (m :: ms) = dquote :: u := by
  obtain ⟨k, v⟩ := m
  cases ms with
  | nil =>
    refine ⟨escapeChars k ++ [dquote] ++ ':' :: ' ' :: dumps v, ?_⟩
    simp [dumpMems, json_dumps_string]
  | cons p t =>
    refine ⟨escapeChars k ++ [dquote] ++ ':' :: ' ' :: (dumps v ++ ',' :: ' ' :: dumpMems (p :: t)), ?_⟩
    simp [dumpMems, json_dumps_string]

/-- The joint induction: a serialized value parses back, consuming exactly
its own text, whenever the fuel exceeds its length (members and elements
likewise, positioned before their closing delimiter). -/
theorem parse_dumps_ind : ∀ fuel : Nat,
    (∀ v rest, (dumps v).length < fuel → NumSafe rest →
      ∃ r, parseValue fuel (dumps v ++ rest) = some (r, rest)) ∧
    (∀ l rest acc, l ≠ [] → (dumpMems l).length + 1 < fuel →
      ∃ r, parseMems fuel (dumpMems l ++ cbrace :: rest) acc =
        some (JValue.obj r, rest)) ∧
    (∀ l rest acc, l ≠ [] → (dumpElems l).length + 1 < fuel →
      ∃ r, parseElems fuel (dumpElems l ++ ']' :: rest) acc =
        some (JValue.arr r, rest)) := by
  intro fuel
  induction fuel with
  | zero =>
    exact ⟨fun v rest h _ => absurd h (by omega),
      fun l rest acc _ h => absurd h (by omega),
      fun l rest acc _ h => absurd h (by omega)⟩
  | succ fuel ih =>
    obtain ⟨ihv, ihm, ihe⟩ := ih
    refine ⟨?_, ?_, ?_⟩
    · intro v rest hfuel hsafe
      cases v with
      | null =>
        refine ⟨JValue.null, ?_⟩
        rw [show dumps JValue.null = ['n', 'u', 'l', 'l'] from rfl]
        rw [parseValue.eq_def]
        simp +decide
      | bool b =>
        cases b with
        | true =>
          refine ⟨JValue.bool true, ?_⟩
          rw [show dumps (JValue.bool true) = ['t', 'r', 'u', 'e'] from rfl]
          rw [parseValue.eq_def]
          simp +decide
        | false =>
          refine ⟨JValue.bool false, ?_⟩
          rw [show dumps (JValue.bool false) = ['f', 'a', 'l', 's', 'e'] from rfl]
          rw [parseValue.eq_def]
          simp +decide
      | num i =>
        obtain ⟨c, t, hct, hc⟩ := intChars_head_digit_or_minus i
        have hne6 : c ≠ dquote ∧ c ≠ obrace ∧ c ≠ '[' ∧ c ≠ 't' ∧ c ≠ 'f' ∧ c ≠ 'n' := by
          rcases hc with hdg | rfl
          · have hb : 48 ≤ c.toNat ∧ c.toNat ≤ 57 := by simpa [isDigitCh] using hdg
            exact ⟨ne_of_digit_range hb.1 hb.2 (by decide),
              ne_of_digit_range hb.1 hb.2 (by decide),
              ne_of_digit_range hb.1 hb.2 (by decide),
              ne_of_digit_range hb.1 hb.2 (by decide),
              ne_of_digit_range hb.1 hb.2 (by decide),
              ne_of_digit_range hb.1 hb.2 (by decide)⟩
          · exact ⟨by decide, by decide, by decide, by decide, by decide, by decide⟩
        have hpn : parseNum (c :: (t ++ rest)) = some (i, rest) := by
          rw [← List.cons_append, ← hct]
          exact parseNum_intChars hsafe
        rw [show dumps (JValue.num i) = intChars i from rfl, hct, List.cons_append]
        rw [parseValue.eq_def]
        simp only []
        rw [if_neg hne6.1, if_neg hne6.2.1, if_neg hne6.2.2.1, if_neg hne6.2.2.2.1,
          if_neg hne6.2.2.2.2.1, if_neg hne6.2.2.2.2.2, hpn]
        exact ⟨JValue.num i, rfl⟩
      | str s =>
        refine ⟨JValue.str s, ?_⟩
        rw [show dumps (JValue.str s) = dquote :: (escapeChars s ++ [dquote]) from rfl]
        rw [List.cons_append, List.append_assoc, List.singleton_append]
        rw [parseValue.eq_def]
        simp only []
        rw [if_pos trivial, parseStrBody_escape]
        simp
      | arr l =>
        cases l with
        | nil =>
          refine ⟨JValue.arr [], ?_⟩
          rw [show dumps (JValue.arr []) = ['[', ']'] from rfl]
          rw [parseValue.eq_def]
          simp +decide [skipJWs]
        | cons x xs =>
          have hlend : (dumps (JValue.arr (x :: xs))).length =
              (dumpElems (x :: xs)).length + 2 := by
            rw [show dumps (JValue.arr (x :: xs)) =
              '[' :: (dumpElems (x :: xs) ++ [']']) from rfl]
            simp
          obtain ⟨r, hr⟩ := ihe (x :: xs) rest [] (by simp) (by omega)
          obtain ⟨c0, t0, hct0, hws0, hrb0, -⟩ := dumpElems_head x xs
          rw [hct0, List.cons_append] at hr
          rw [show dumps (JValue.arr (x :: xs)) =
            '[' :: (dumpElems (x :: xs) ++ [']']) from rfl]
          rw [List.cons_append, List.append_assoc, List.singleton_append]
          rw [parseValue.eq_def]
          simp only []
          rw [if_neg (by decide : ¬ ('[' : Char) = dquote),
            if_neg (by decide : ¬ ('[' : Char) = obrace), if_pos trivial]
          rw [hct0, List.cons_append, skipJWs_cons_of_neg hws0]
          rw [if_neg (by simp [hrb0]), hr]
          exact ⟨JValue.arr r, rfl⟩
      | obj l =>
        cases l with
        | nil =>
          refine ⟨JValue.obj [], ?_⟩
          rw [show dumps (JValue.obj []) = [obrace, cbrace] from rfl]
          rw [parseValue.eq_def]
          simp +decide [skipJWs]
        | cons m ms =>
          have hlend : (dumps (JValue.obj (m :: ms))).length =
              (dumpMems (m :: ms)).length + 2 := by
            rw [show dumps (JValue.obj (m :: ms)) =
              obrace :: (dumpMems (m :: ms) ++ [cbrace]) from rfl]
            simp
          obtain ⟨r, hr⟩ := ihm (m :: ms) rest [] (by simp) (by omega)
          obtain ⟨u, hu⟩ := dumpMems_head m ms
          rw [hu, List.cons_append] at hr
          rw [show dumps (JValue.obj (m :: ms)) =
            obrace :: (dumpMems (m :: ms) ++ [cbrace]) from rfl]
          rw [List.cons_append, List.append_assoc, List.singleton_append]
          rw [parseValue.eq_def]
          simp only []
          rw [if_neg (by decide : ¬ obrace = dquote), if_pos trivial]
          rw [hu, List.cons_append, skipJWs_cons_of_neg (by decide)]
          rw [if_neg (by simp +decide), hr]
          exact ⟨JValue.obj r, rfl⟩
    · intro l rest acc hne hfuel
      obtain ⟨m, ms⟩ : ∃ m ms, l = m :: ms := by
        cases l with
        | nil => exact absurd rfl hne
        | cons m ms => exact ⟨m, ms, rfl⟩
      obtain ⟨ms, rfl⟩ := ms
      obtain ⟨k, v⟩ := m
      cases ms with
      | nil =>
        have hlen : (dumpMems [(k, v)]).length =
            (escapeChars k).length + (dumps v).length + 4 := by
          simp [dumpMems, json_dumps_string]
          omega
        obtain ⟨r, hr⟩ := ihv v (cbrace :: rest) (by omega)
          (NumSafe_cons (by decide) rest)
        obtain ⟨c0, t0, hct0, hws0, -, -⟩ := dumps_head v
        rw [hct0, List.cons_append] at hr
        rw [show dumpMems [(k, v)] =
          json_dumps_string k ++ ':' :: ' ' :: dumps v from rfl]
        rw [show json_dumps_string k = dquote :: (escapeChars k ++ [dquote]) from rfl]
        simp only [List.cons_append, List.append_assoc, List.singleton_append]
        rw [parseMems.eq_def]
        simp only []
        rw [if_pos trivial, parseStrBody_escape]
        simp only [List.reverse_nil, List.nil_append, Option.some_bind]
        rw [skipJWs_cons_of_neg (by decide)]
        simp only [List.head?_cons, List.tail_cons]
        rw [if_pos trivial]
        rw [skipJWs_cons_of_pos (by decide)]
        rw [hct0, List.cons_append, skipJWs_cons_of_neg hws0, hr]
        simp only [Option.some_bind]
        rw [skipJWs_cons_of_neg (by decide)]
        simp only [List.head?_cons, List.tail_cons]
        rw [if_neg (show ¬ (some cbrace = some ',') from by decide), if_pos trivial]
        exact ⟨insertKey acc k r, rfl⟩
      | cons p t =>
        have hlen : (dumpMems ((k, v) :: p :: t)).length =
            (escapeChars k).length + (dumps v).length +
              (dumpMems (p :: t)).length + 6 := by
          simp [dumpMems, json_dumps_string]
          omega
        obtain ⟨r, hr⟩ := ihv v (',' :: ' ' :: (dumpMems (p :: t) ++ cbrace :: rest))
          (by omega) (NumSafe_cons (by decide) _)
        obtain ⟨c0, t0, hct0, hws0, -, -⟩ := dumps_head v
        rw [hct0, List.cons_append] at hr
        obtain ⟨r2, hr2⟩ := ihm (p :: t) rest (insertKey acc k r) (by simp) (by omega)
        obtain ⟨u2, hu2⟩ := dumpMems_head p t
        rw [hu2, List.cons_append] at hr2
        have hdm : dumpMems ((k, v) :: p :: t) = json_dumps_string k ++
            ':' :: ' ' :: (dumps v ++ ',' :: ' ' :: dumpMems (p :: t)) := by
          simp [dumpMems, List.append_assoc]
        rw [hdm]
        rw [show json_dumps_string k = dquote :: (escapeChars k ++ [dquote]) from rfl]
        simp only [List.cons_append, List.append_assoc, List.singleton_append]
        rw [parseMems.eq_def]
        simp only []
        rw [if_pos trivial, parseStrBody_escape]
        simp only [List.reverse_nil, List.nil_append, Option.some_bind]
        rw [skipJWs_cons_of_neg (by decide)]
        simp only [List.head?_cons, List.tail_cons]
        rw [if_pos trivial]
        rw [skipJWs_cons_of_pos (by decide)]
        rw [hct0, List.cons_append, skipJWs_cons_of_neg hws0, hr]
        simp only [Option.some_bind]
        rw [skipJWs_cons_of_neg (by decide)]
        simp only [List.head?_cons, List.tail_cons]
        rw [if_pos trivial]
        rw [skipJWs_cons_of_pos (by decide)]
        rw [hu2, List.cons_append, skipJWs_cons_of_neg (by decide), hr2]
        exact ⟨r2, rfl⟩
    · intro l rest acc hne hfuel
      obtain ⟨x, xs⟩ : ∃ x xs, l = x :: xs := by
        cases l with
        | nil => exact absurd rfl hne
        | cons x xs => exact ⟨x, xs, rfl⟩
      obtain ⟨xs, rfl⟩ := xs
      cases xs with
      | nil =>
        have hlen : (dumpElems [x]).length = (dumps x).length := by
          rw [show dumpElems [x] = dumps x from rfl]
        obtain ⟨r, hr⟩ := ihv x (']' :: rest) (by omega)
          (NumSafe_cons (by decide) rest)
        rw [show dumpElems [x] = dumps x from rfl]
        rw [parseElems.eq_def]
        simp only []
        rw [hr]
        simp only [Option.some_bind]
        rw [skipJWs_cons_of_neg (by decide)]
        simp only [List.head?_cons, List.tail_cons]
        rw [if_neg (show ¬ (some ']' = some ',') from by decide), if_pos trivial]
        exact ⟨(r :: acc).reverse, rfl⟩
      | cons y t =>
        have hlen : (dumpElems (x :: y :: t)).length =
            (dumps x).length + (dumpElems (y :: t)).length + 2 := by
          rw [show dumpElems (x :: y :: t) =
            dumps x ++ ',' :: ' ' :: dumpElems (y :: t) from rfl]
          simp
          omega
        obtain ⟨r, hr⟩ := ihv x (',' :: ' ' :: (dumpElems (y :: t) ++ ']' :: rest))
          (by omega) (NumSafe_cons (by decide) _)
        obtain ⟨r2, hr2⟩ := ihe (y :: t) rest (r :: acc) (by simp) (by omega)
        obtain ⟨c0, t0, hct0, hws0, -, -⟩ := dumpElems_head y t
        rw [hct0, List.cons_append] at hr2
        rw [show dumpElems (x :: y :: t) =
          dumps x ++ ',' :: ' ' :: dumpElems (y :: t) from rfl]
        simp only [List.cons_append, List.append_assoc]
        rw [parseElems.eq_def]
        simp only []
        rw [hr]
        simp only [Option.some_bind]
        rw [skipJWs_cons_of_neg (by decide)]
        simp only [List.head?_cons, List.tail_cons]
        rw [if_pos trivial]
        rw [skipJWs_cons_of_pos (by decide)]
        rw [hct0, List.cons_append, skipJWs_cons_of_neg hws0, hr2]
        exact ⟨r2, rfl⟩

/-- `json.loads` accepts the canonical serialization of every document. -/
theorem json_loads_dumps (v : JValue) : ∃ w, json_loads (dumps v) = some w := by
  obtain ⟨r, hr⟩ := (parse_dumps_ind ((dumps v).length + 1)).1 v [] (by omega) NumSafe_nil
  obtain ⟨c, t, hct, hws, -, -⟩ := dumps_head v
  refine ⟨r, ?_⟩
  unfold json_loads
  rw [List.append_nil] at hr
  rw [show skipJWs (dumps v) = dumps v from by rw [hct]; exact skipJWs_cons_of_neg hws t]
  rw [hr]
  simp [skipJWs]

theorem intChars_chars (i : Int) :
    ∀ c ∈ intChars i, isDigitCh c = true ∨ c = '-' := by
  unfold intChars
  split
  · intro c hc
    rcases List.mem_cons.mp hc with rfl | hm
    · exact Or.inr rfl
    · exact Or.inl ((natDigitsF_spec _ _ (by omega)).1 c hm)
  · intro c hc
    exact Or.inl ((natDigitsF_spec _ _ (by omega)).1 c hc)

/-! ## Scanner transparency: the extractor's depth scan over serialized text -/

/-- A chunk the depth scan passes through at any positive depth, outside a
string, shifting the found index by its length. -/
def Transp (a : List Char) : Prop :=
  ∀ rest (d : Int), 1 ≤ d →
    scanObj (a ++ rest) d false false =
      (scanObj rest d false false).map (· + a.length)

/-- A chunk the scan passes through while inside a string literal. -/
def StrTransp (a : List Char) : Prop :=
  ∀ rest (d : Int),
    scanObj (a ++ rest) d true false =
      (scanObj rest d true false).map (· + a.length)

theorem scanObj_cons_neutral {ch : Char} (h1 : ch ≠ dquote) (h2 : ch ≠ obrace)
    (h3 : ch ≠ cbrace) (rest : List Char) (d : Int) :
    scanObj (ch :: rest) d false false =
      (scanObj rest d false false).map (· + 1) := by
  rw [scanObj.eq_def]
  simp only []
  rw [if_neg (by decide : ¬ (false : Bool) = true), if_neg h1, if_neg h2, if_neg h3]

theorem scanObj_cons_dquote_out (rest : List Char) (d : Int) :
    scanObj (dquote :: rest) d false false =
      (scanObj rest d true false).map (· + 1) := by
  rw [scanObj.eq_def]
  simp only []
  rw [if_neg (by decide : ¬ (false : Bool) = true), if_pos trivial]

theorem scanObj_cons_obrace (rest : List Char) (d : Int) :
    scanObj (obrace :: rest) d false false =
      (scanObj rest (d + 1) false false).map (· + 1) := by
  rw [scanObj.eq_def]
  simp only []
  rw [if_neg (by decide : ¬ (false : Bool) = true),
    if_neg (by decide : ¬ obrace = dquote), if_pos trivial]

theorem scanObj_cons_cbrace {d : Int} (h : ¬ d - 1 = 0) (rest : List Char) :
    scanObj (cbrace :: rest) d false false =
      (scanObj rest (d - 1) false false).map (· + 1) := by
  rw [scanObj.eq_def]
  simp only []
  rw [if_neg (by decide : ¬ (false : Bool) = true),
    if_neg (by decide : ¬ cbrace = dquote),
    if_neg (by decide : ¬ cbrace = obrace), if_pos trivial, if_neg h]

theorem scanObj_cons_cbrace_done {d : Int} (h : d - 1 = 0) (rest : List Char) :
    scanObj (cbrace :: rest) d false false = some 1 := by
  rw [scanObj.eq_def]
  simp only []
  rw [if_neg (by decide : ¬ (false : Bool) = true),
    if_neg (by decide : ¬ cbrace = dquote),
    if_neg (by decide : ¬ cbrace = obrace), if_pos trivial, if_pos h]

theorem scanObj_cons_str_plain {ch : Char} (h1 : ch ≠ bslash) (h2 : ch ≠ dquote)
    (rest : List Char) (d : Int) :
    scanObj (ch :: rest) d true false =
      (scanObj rest d true false).map (· + 1) := by
  rw [scanObj.eq_def]
  simp only []
  rw [if_pos trivial, if_neg (by decide : ¬ (false : Bool) = true), if_neg h1, if_neg h2]

theorem scanObj_cons_str_esc (ch : Char) (rest : List Char) (d : Int) :
    scanObj (ch :: rest) d true true =
      (scanObj rest d true false).map (· + 1) := by
  rw [scanObj.eq_def]
  simp only []
  rw [if_pos trivial, if_pos trivial]

theorem scanObj_cons_bslash_str (rest : List Char) (d : Int) :
    scanObj (bslash :: rest) d true false =
      (scanObj rest d true true).map (· + 1) := by
  rw [scanObj.eq_def]
  simp only []
  rw [if_pos trivial, if_neg (by decide : ¬ (false : Bool) = true), if_pos trivial]

theorem scanObj_cons_dquote_in (rest : List Char) (d : Int) :
    scanObj (dquote :: rest) d true false =
      (scanObj rest d false false).map (· + 1) := by
  rw [scanObj.eq_def]
  simp only []
  rw [if_pos trivial, if_neg (by decide : ¬ (false : Bool) = true),
    if_neg (by decide : ¬ dquote = bslash), if_pos trivial]

theorem transp_nil : Transp [] := by
  intro rest d _
  rw [List.nil_append]
  cases h : scanObj rest d false false <;> simp

theorem transp_append {a b : List Char} (ha : Transp a) (hb : Transp b) :
    Transp (a ++ b) := by
  intro rest d hd
  rw [List.append_assoc, ha (b ++ rest) d hd, hb rest d hd]
  cases h : scanObj rest d false false with
  | none => simp
  | some n =>
    simp only [Option.map_some', Option.some.injEq, List.length_append]
    omega

theorem transp_cons_neutral {c : Char} (h1 : c ≠ dquote) (h2 : c ≠ obrace)
    (h3 : c ≠ cbrace) {t : List Char} (ht : Transp t) : Transp (c :: t) := by
  intro rest d hd
  rw [List.cons_append, scanObj_cons_neutral h1 h2 h3, ht rest d hd]
  cases h : scanObj rest d false false with
  | none => simp
  | some n =>
    simp only [Option.map_some', Option.some.injEq, List.length_cons]
    omega

theorem transp_neutral_list {a : List Char}
    (h : ∀ c ∈ a, c ≠ dquote ∧ c ≠ obrace ∧ c ≠ cbrace) : Transp a := by
  induction a with
  | nil => exact transp_nil
  | cons c t ih =>
    obtain ⟨h1, h2, h3⟩ := h c (by simp)
    exact transp_cons_neutral h1 h2 h3 (ih fun x hx => h x (by simp [hx]))

theorem strTransp_nil : StrTransp [] := by
  intro rest d
  rw [List.nil_append]
  cases h : scanObj rest d true false <;> simp

theorem strTransp_append {a b : List Char} (ha : StrTransp a) (hb : StrTransp b) :
    StrTransp (a ++ b) := by
  intro rest d
  rw [List.append_assoc, ha (b ++ rest) d, hb rest d]
  cases h : scanObj rest d true false with
  | none => simp
  | some n =>
    simp only [Option.map_some', Option.some.injEq, List.length_append]
    omega

theorem strTransp_cons_plain {c : Char} (h1 : c ≠ bslash) (h2 : c ≠ dquote)
    {t : List Char} (ht : StrTransp t) : StrTransp (c :: t) := by
  intro rest d
  rw [List.cons_append, scanObj_cons_str_plain h1 h2, ht rest d]
  cases h : scanObj rest d true false with
  | none => simp
  | some n =>
    simp only [Option.map_some', Option.some.injEq, List.length_cons]
    omega

theorem strTransp_cons_esc (x : Char) {t : List Char} (ht : StrTransp t) :
    StrTransp (bslash :: x :: t) := by
  intro rest d
  rw [List.cons_append, List.cons_append, scanObj_cons_bslash_str,
    scanObj_cons_str_esc, ht rest d]
  cases h : scanObj rest d true false with
  | none => simp
  | some n =>
    simp only [Option.map_some', Option.some.injEq, List.length_cons]
    omega

theorem strTransp_toHex4 (u : Nat) : StrTransp (toHex4 u) := by
  have hd : ∀ m : Nat, hexDigit (m % 16) ≠ bslash ∧ hexDigit (m % 16) ≠ dquote := by
    intro m
    obtain ⟨ha, hb⟩ := hexDigit_ne_specials (m % 16) (Nat.mod_lt _ (by omega))
    exact ⟨hb, ha⟩
  simp only [toHex4]
  exact strTransp_cons_plain (hd _).1 (hd _).2
    (strTransp_cons_plain (hd _).1 (hd _).2
      (strTransp_cons_plain (hd _).1 (hd _).2
        (strTransp_cons_plain (hd _).1 (hd _).2 strTransp_nil)))

theorem strTransp_encodeChar (c : Char) : StrTransp (encodeChar c) := by
  by_cases h1 : c = dquote
  · subst h1
    rw [show encodeChar dquote = [bslash, dquote] from by decide]
    exact strTransp_cons_esc dquote strTransp_nil
  by_cases h2 : c = bslash
  · subst h2
    rw [show encodeChar bslash = [bslash, bslash] from by decide]
    exact strTransp_cons_esc bslash strTransp_nil
  by_cases h3 : c = nlc
  · subst h3
    rw [show encodeChar nlc = [bslash, 'n'] from by decide]
    exact strTransp_cons_esc 'n' strTransp_nil
  by_cases h4 : c = tabc
  · subst h4
    rw [show encodeChar tabc = [bslash, 't'] from by decide]
    exact strTransp_cons_esc 't' strTransp_nil
  by_cases h5 : c = crc
  · subst h5
    rw [show encodeChar crc = [bslash, 'r'] from by decide]
    exact strTransp_cons_esc 'r' strTransp_nil
  by_cases h6 : c = bspc
  · subst h6
    rw [show encodeChar bspc = [bslash, 'b'] from by decide]
    exact strTransp_cons_esc 'b' strTransp_nil
  by_cases h7 : c = ffc
  · subst h7
    rw [show encodeChar ffc = [bslash, 'f'] from by decide]
    exact strTransp_cons_esc 'f' strTransp_nil
  by_cases hctl : c.toNat < 0x20
  · have hec : encodeChar c = bslash :: 'u' :: toHex4 c.toNat := by
      unfold encodeChar
      rw [if_neg h1, if_neg h2, if_neg h3, if_neg h4, if_neg h5, if_neg h6,
        if_neg h7, if_pos hctl]
    rw [hec]
    exact strTransp_cons_esc 'u' (strTransp_toHex4 c.toNat)
  by_cases hplain : c.toNat < 0x7F
  · have hec : encodeChar c = [c] := by
      unfold encodeChar
      rw [if_neg h1, if_neg h2, if_neg h3, if_neg h4, if_neg h5, if_neg h6,
        if_neg h7, if_neg hctl, if_pos hplain]
    rw [hec]
    exact strTransp_cons_plain h2 h1 strTransp_nil
  by_cases hbmp : c.toNat < 0x10000
  · have hec : encodeChar c = bslash :: 'u' :: toHex4 c.toNat := by
      unfold encodeChar
      rw [if_neg h1, if_neg h2, if_neg h3, if_neg h4, if_neg h5, if_neg h6,
        if_neg h7, if_neg hctl, if_neg hplain, if_pos hbmp]
    rw [hec]
    exact strTransp_cons_esc 'u' (strTransp_toHex4 c.toNat)
  · have hec : encodeChar c =
        (bslash :: 'u' :: toHex4 (0xD800 + (c.toNat - 0x10000) / 0x400)) ++
          (bslash :: 'u' :: toHex4 (0xDC00 + (c.toNat - 0x10000) % 0x400)) := by
      unfold encodeChar
      rw [if_neg h1, if_neg h2, if_neg h3, if_neg h4, if_neg h5, if_neg h6,
        if_neg h7, if_neg hctl, if_neg hplain, if_neg hbmp]
    rw [hec]
    exact strTransp_append (strTransp_cons_esc 'u' (strTransp_toHex4 _))
      (strTransp_cons_esc 'u' (strTransp_toHex4 _))

theorem strTransp_escapeChars : ∀ s : List Char, StrTransp (escapeChars s)
  | [] => strTransp_nil
  | c :: t => by
    rw [show escapeChars (c :: t) = encodeChar c ++ escapeChars t from rfl]
    exact strTransp_append (strTransp_encodeChar c) (strTransp_escapeChars t)

/-- A double-quoted chunk whose body the in-string scan passes through is
transparent to the outer scan. -/
theorem transp_string_chunk {b : List Char} (hb : StrTransp b) :
    Transp (dquote :: b ++ [dquote]) := by
  intro rest d _
  rw [List.append_assoc, List.singleton_append, List.cons_append,
    scanObj_cons_dquote_out, hb (dquote :: rest) d, scanObj_cons_dquote_in]
  cases h : scanObj rest d false false with
  | none => simp
  | some n =>
    simp only [Option.map_some', Option.some.injEq, List.length_cons,
      List.length_append, List.length_singleton, List.length_nil]
    omega

theorem transp_dumps_string (s : List Char) : Transp (json_dumps_string s) :=
  transp_string_chunk (strTransp_escapeChars s)

/-- A balanced brace chunk with transparent interior is transparent. -/
theorem transp_braces {A : List Char} (hA : Transp A) :
    Transp (obrace :: A ++ [cbrace]) := by
  intro rest d hd
  rw [List.append_assoc, List.singleton_append, List.cons_append,
    scanObj_cons_obrace, hA (cbrace :: rest) (d + 1) (by omega),
    scanObj_cons_cbrace (by omega : ¬ (d + 1) - 1 = 0)]
  have hdd : d + 1 - 1 = d := by omega
  rw [hdd]
  cases h : scanObj rest d false false with
  | none => simp
  | some n =>
    simp only [Option.map_some', Option.some.injEq, List.length_cons,
      List.length_append, List.length_singleton, List.length_nil]
    omega

mutual

theorem transp_dumps : ∀ v : JValue, Transp (dumps v)
  | .null => transp_neutral_list (by decide)
  | .bool true => transp_neutral_list (by decide)
  | .bool false => transp_neutral_list (by decide)
  | .num i => transp_neutral_list (by
      intro c hc
      rcases intChars_chars i c hc with hdg | rfl
      · have hb : 48 ≤ c.toNat ∧ c.toNat ≤ 57 := by simpa [isDigitCh] using hdg
        exact ⟨ne_of_digit_range hb.1 hb.2 (by decide),
          ne_of_digit_range hb.1 hb.2 (by decide),
          ne_of_digit_range hb.1 hb.2 (by decide)⟩
      · exact ⟨by decide, by decide, by decide⟩)
  | .str s => transp_dumps_string s
  | .arr l => by
    show Transp ('[' :: dumpElems l ++ [']'])
    rw [List.cons_append]
    exact transp_cons_neutral (by decide) (by decide) (by decide)
      (transp_append (transp_dumpElems l) (transp_neutral_list (by decide)))
  | .obj l => transp_braces (transp_dumpMems l)

theorem transp_dumpElems : ∀ l : List JValue, Transp (dumpElems l)
  | [] => transp_nil
  | [x] => transp_dumps x
  | x :: y :: t =>
    transp_append (transp_dumps x)
      (transp_cons_neutral (by decide) (by decide) (by decide)
        (transp_cons_neutral (by decide) (by decide) (by decide)
          (transp_dumpElems (y :: t))))

theorem transp_dumpMems : ∀ l : List (List Char × JValue), Transp (dumpMems l)
  | [] => transp_nil
  | [(k, v)] =>
    transp_append (transp_dumps_string k)
      (transp_cons_neutral (by decide) (by decide) (by decide)
        (transp_cons_neutral (by decide) (by decide) (by decide)
          (transp_dumps v)))
  | (k, v) :: p :: t => by
    show Transp ((json_dumps_string k ++ ':' :: ' ' :: dumps v) ++
      ',' :: ' ' :: dumpMems (p :: t))
    exact transp_append
      (transp_append (transp_dumps_string k)
        (transp_cons_neutral (by decide) (by decide) (by decide)
          (transp_cons_neutral (by decide) (by decide) (by decide)
            (transp_dumps v))))
      (transp_cons_neutral (by decide) (by decide) (by decide)
        (transp_cons_neutral (by decide) (by decide) (by decide)
          (transp_dumpMems (p :: t))))

end

/-- The depth scan started at depth 0 on a balanced brace chunk stops at its
final brace, whatever follows. -/
theorem scanObj_top {A : List Char} (hA : Transp A) (rest : List Char) :
    scanObj (obrace :: (A ++ cbrace :: rest)) 0 false false =
      some (A.length + 2) := by
  rw [scanObj_cons_obrace, hA (cbrace :: rest) (0 + 1) (by omega),
    scanObj_cons_cbrace_done (by omega : (0 : Int) + 1 - 1 = 0)]
  simp only [Option.map_some', Option.some.injEq]
  omega

theorem pyFind_append_of_not_mem {c : Char} :
    ∀ {a : List Char}, c ∉ a → ∀ b, pyFind c (a ++ b) = (pyFind c b).map (· + a.length)
  | [], _, b => by
    rw [List.nil_append]
    cases h : pyFind c b <;> simp
  | x :: xs, h, b => by
    have hx : ¬ x = c := by rintro rfl; exact h (by simp)
    rw [List.cons_append]
    rw [show pyFind c (x :: (xs ++ b)) =
      if x = c then some 0 else (pyFind c (xs ++ b)).map (· + 1) from rfl]
    rw [if_neg hx, pyFind_append_of_not_mem (fun hm => h (by simp [hm])) b]
    cases hb : pyFind c b with
    | none => simp
    | some n =>
      simp only [Option.map_some', Option.some.injEq, List.length_cons]
      omega

/-- The extractor isolates exactly an embedded balanced-brace object whose
interior is scanner-transparent, for any brace-free prose prefix and any
trailing text. -/
theorem extract_obj_general (prose : List Char) (hp : obrace ∉ prose)
    {A : List Char} (hA : Transp A) (trailing : List Char) :
    extract_first_json_object (prose ++ obrace :: (A ++ cbrace :: trailing)) =
      obrace :: (A ++ [cbrace]) := by
  unfold extract_first_json_object
  rw [if_neg (by simp)]
  have hf : pyFind obrace (prose ++ obrace :: (A ++ cbrace :: trailing)) =
      some prose.length := by
    rw [pyFind_append_of_not_mem hp]
    rw [show pyFind obrace (obrace :: (A ++ cbrace :: trailing)) = some 0 from by
      simp [pyFind]]
    simp
  rw [hf]
  simp only []
  rw [List.drop_left]
  rw [scanObj_top hA trailing]
  simp only []
  rw [show (A.length + 2) = (A.length + 1) + 1 from rfl, List.take_succ_cons]
  rw [List.take_append_eq_append_take, List.take_of_length_le (by omega)]
  rw [(by omega : A.length + 1 - A.length = 1)]
  simp

theorem extract_dumps_obj (l : List (List Char × JValue)) :
    extract_first_json_object (dumps (JValue.obj l)) = dumps (JValue.obj l) := by
  have h := extract_obj_general [] (by simp) (transp_dumpMems l) []
  rw [List.nil_append] at h
  exact h

theorem dumps_obj_ne_nil (l : List (List Char × JValue)) :
    dumps (JValue.obj l) ≠ [] := by
  rw [show dumps (JValue.obj l) = (obrace :: dumpMems l) ++ [cbrace] from rfl]
  simp

/-- C4 (corrected): not every serialization of a valid document survives the
pipeline — `json.dumps` of the string value `\x7b` is the text `"\x7b"`,
which `json.loads` parses directly, yet `safe_json_loads` on it extracts the
spurious candidate `\x7b"` from inside the string literal, every stage then
fails and the result is a populated error with value None. -/
theorem claim_C4_counterexample :
    json_loads (dumps (JValue.str [obrace])) = some (JValue.str [obrace]) ∧
    (safe_json_loads (dumps (JValue.str [obrace]))).value = JValue.null ∧
    (safe_json_loads (dumps (JValue.str [obrace]))).error.isSome = true := by
  decide

/-- C4 (amended): for every structured document that is an object, running
the full pipeline on its serialization returns exactly the strict parser's
value for that text: extraction is the identity, the first strict parse
succeeds, and the result carries that value, the serialized text as the
final candidate, and no error. -/
theorem claim_C4 (l : List (List Char × JValue)) :
    ∃ w, json_loads (dumps (JValue.obj l)) = some w ∧
      extract_first_json_object (dumps (JValue.obj l)) = dumps (JValue.obj l) ∧
      safe_json_loads (dumps (JValue.obj l)) =
        ⟨w, dumps (JValue.obj l), none⟩ := by
  obtain ⟨w, hw⟩ := json_loads_dumps (JValue.obj l)
  have hex := extract_dumps_obj l
  refine ⟨w, hw, hex, ?_⟩
  have h0 := safe_succ0 (dumps_obj_ne_nil l)
    (show json_loads (extract_first_json_object (dumps (JValue.obj l))) = some w from by
      rw [hex]; exact hw)
  rw [hex] at h0
  exact h0

/-- C5 (corrected): with a brace inside the prose the extractor does not
isolate the inner object — on `\x7b \x7b"a": 1\x7d x` it returns a span
starting at the prose's brace, every stage fails, and the pipeline reports
an error instead of the object's value. -/
theorem claim_C5_counterexample :
    extract_first_json_object ("\x7b \x7b\"a\": 1\x7d x".toList) ≠
      "\x7b\"a\": 1\x7d".toList ∧
    (safe_json_loads ("\x7b \x7b\"a\": 1\x7d x".toList)).value = JValue.null ∧
    (safe_json_loads ("\x7b \x7b\"a\": 1\x7d x".toList)).error.isSome = true := by
  decide

/-- C5 (amended): for input of the form prose, then a serialized balanced
object, then arbitrary trailing text, where the prose contains no `\x7b`,
the extractor returns exactly the object's text — quote-aware depth
scanning from the first `\x7b` — and the pipeline succeeds at the first
strict parse with that object's parsed value and no error. -/
theorem claim_C5 (prose trailing : List Char) (l : List (List Char × JValue))
    (hp : obrace ∉ prose) :
    extract_first_json_object (prose ++ dumps (JValue.obj l) ++ trailing) =
      dumps (JValue.obj l) ∧
    ∃ w, json_loads (dumps (JValue.obj l)) = some w ∧
      safe_json_loads (prose ++ dumps (JValue.obj l) ++ trailing) =
        ⟨w, dumps (JValue.obj l), none⟩ := by
  rw [List.append_assoc]
  have harr : dumps (JValue.obj l) ++ trailing =
      obrace :: (dumpMems l ++ cbrace :: trailing) := by
    rw [show dumps (JValue.obj l) = (obrace :: dumpMems l) ++ [cbrace] from rfl]
    simp [List.append_assoc]
  have hex : extract_first_json_object
      (prose ++ (dumps (JValue.obj l) ++ trailing)) = dumps (JValue.obj l) := by
    rw [harr]
    rw [extract_obj_general prose hp (transp_dumpMems l) trailing]
    rfl
  have hne : prose ++ (dumps (JValue.obj l) ++ trailing) ≠ [] := by
    rw [harr]
    simp
  obtain ⟨w, hw⟩ := json_loads_dumps (JValue.obj l)
  refine ⟨hex, w, hw, ?_⟩
  have h0 := safe_succ0 hne
    (show json_loads (extract_first_json_object
        (prose ++ (dumps (JValue.obj l) ++ trailing))) = some w from by
      rw [hex]; exact hw)
  rw [hex] at h0
  exact h0

/-! ## C8: multiline value re-escape on a well-behaved document -/

/-- Characters that play no delimiter role anywhere in the pipeline: not a
quote of either kind, not a backslash, bracket, brace or colon, and not a
control character. -/
def SafeChar (c : Char) : Prop :=
  c ≠ dquote ∧ c ≠ squote ∧ c ≠ bslash ∧ c ≠ obrace ∧ c ≠ cbrace ∧
    c ≠ '[' ∧ c ≠ ']' ∧ c ≠ ':' ∧ 0x20 ≤ c.toNat

instance (c : Char) : Decidable (SafeChar c) := by
  unfold SafeChar
  infer_instance

/-- The claim's input shape: a document whose `"value"` field is a string
literal holding two raw lines separated by a raw line break, the closing
quote immediately before the final closing brace. -/
def mlDoc (l1 l2 : List Char) : List Char :=
  obrace :: dquote :: 'v' :: 'a' :: 'l' :: 'u' :: 'e' :: dquote :: ':' :: ' ' ::
    dquote :: (l1 ++ nlc :: (l2 ++ [dquote, cbrace]))

/-- The repaired document: the same skeleton with the two lines re-encoded
by `json.dumps` as one properly escaped string literal. -/
def mlFixed (l1 l2 : List Char) : List Char :=
  obrace :: dquote :: 'v' :: 'a' :: 'l' :: 'u' :: 'e' :: dquote :: ':' :: ' ' ::
    (json_dumps_string (l1 ++ nlc :: l2) ++ [cbrace])

theorem parseStrBody_close (t acc : List Char) :
    parseStrBody (dquote :: t) acc = some (acc.reverse, t) := by
  rw [parseStrBody.eq_def]
  simp only []
  rw [if_pos trivial]

theorem parseStrBody_plain_cons {c : Char}
    (h : c ≠ dquote ∧ c ≠ bslash ∧ ¬ c.toNat < 0x20) (t acc : List Char) :
    parseStrBody (c :: t) acc = parseStrBody t (c :: acc) := by
  rw [parseStrBody.eq_def]
  simp only []
  rw [if_neg h.1, if_neg h.2.1, if_neg h.2.2]

theorem parseStrBody_plain_run :
    ∀ {a : List Char}, (∀ c ∈ a, c ≠ dquote ∧ c ≠ bslash ∧ ¬ c.toNat < 0x20) →
    ∀ t acc, parseStrBody (a ++ t) acc = parseStrBody t (a.reverse ++ acc)
  | [], _, t, acc => by simp
  | c :: a, h, t, acc => by
    rw [List.cons_append, parseStrBody_plain_cons (h c (by simp)),
      parseStrBody_plain_run (fun x hx => h x (by simp [hx])) t (c :: acc)]
    simp

theorem parseStrBody_nlc (t acc : List Char) :
    parseStrBody (nlc :: t) acc = none := by
  rw [parseStrBody.eq_def]
  simp only []
  rw [if_neg (by decide : ¬ nlc = dquote), if_neg (by decide : ¬ nlc = bslash),
    if_pos (by decide : nlc.toNat < 0x20)]

theorem parseValue_dquote {f : Nat} (hf : f ≠ 0) (t : List Char) :
    parseValue f (dquote :: t) =
      (parseStrBody t []).map (fun p => (JValue.str p.1, p.2)) := by
  cases f with
  | zero => exact absurd rfl hf
  | succ f =>
    rw [parseValue.eq_def]
    simp only []
    rw [if_pos trivial]

theorem strTransp_plain_list {b : List Char}
    (h : ∀ c ∈ b, c ≠ bslash ∧ c ≠ dquote) : StrTransp b := by
  induction b with
  | nil => exact strTransp_nil
  | cons c t ih =>
    obtain ⟨h1, h2⟩ := h c (by simp)
    exact strTransp_cons_plain h1 h2 (ih fun x hx => h x (by simp [hx]))

/-- The whole `mlDoc` body between its outer braces is scanner-transparent,
so the extractor returns the document unchanged. -/
theorem extract_mlDoc (l1 l2 : List Char)
    (h1 : ∀ c ∈ l1, SafeChar c) (h2 : ∀ c ∈ l2, SafeChar c) :
    extract_first_json_object (mlDoc l1 l2) = mlDoc l1 l2 := by
  have hcontent : ∀ c ∈ l1 ++ nlc :: l2, c ≠ bslash ∧ c ≠ dquote := by
    intro c hc
    rcases List.mem_append.mp hc with hm | hm
    · exact ⟨(h1 c hm).2.2.1, (h1 c hm).1⟩
    · rcases List.mem_cons.mp hm with rfl | hm2
      · exact ⟨by decide, by decide⟩
      · exact ⟨(h2 c hm2).2.2.1, (h2 c hm2).1⟩
  have hA : Transp ((dquote :: ['v', 'a', 'l', 'u', 'e'] ++ [dquote]) ++
      ':' :: ' ' :: (dquote :: (l1 ++ nlc :: l2) ++ [dquote])) :=
    transp_append (transp_string_chunk (strTransp_plain_list (by decide)))
      (transp_cons_neutral (by decide) (by decide) (by decide)
        (transp_cons_neutral (by decide) (by decide) (by decide)
          (transp_string_chunk (strTransp_plain_list hcontent))))
  have hshape : mlDoc l1 l2 =
      [] ++ obrace :: (((dquote :: ['v', 'a', 'l', 'u', 'e'] ++ [dquote]) ++
        ':' :: ' ' :: (dquote :: (l1 ++ nlc :: l2) ++ [dquote])) ++ cbrace :: []) := by
    simp [mlDoc, List.append_assoc]
  rw [hshape, extract_obj_general [] (by simp) hA []]
  simp [mlDoc, List.append_assoc]

/-- The strict parser rejects `mlDoc`: the raw line break is a control
character inside a string literal. -/
theorem mlDoc_loads_none (l1 l2 : List Char)
    (h1 : ∀ c ∈ l1, SafeChar c) :
    json_loads (mlDoc l1 l2) = none := by
  have hplain : ∀ c ∈ l1, c ≠ dquote ∧ c ≠ bslash ∧ ¬ c.toNat < 0x20 := by
    intro c hc
    exact ⟨(h1 c hc).1, (h1 c hc).2.2.1, by
      have := (h1 c hc).2.2.2.2.2.2.2.2
      omega⟩
  have hcont : parseStrBody (l1 ++ nlc :: (l2 ++ [dquote, cbrace])) [] = none := by
    rw [parseStrBody_plain_run hplain, parseStrBody_nlc]
  obtain ⟨N, hN⟩ : ∃ N, (mlDoc l1 l2).length = N + 2 :=
    ⟨(mlDoc l1 l2).length - 2, by simp [mlDoc]⟩
  unfold json_loads
  rw [hN]
  rw [show mlDoc l1 l2 = obrace :: dquote :: 'v' :: 'a' :: 'l' :: 'u' :: 'e' ::
    dquote :: ':' :: ' ' :: dquote :: (l1 ++ nlc :: (l2 ++ [dquote, cbrace])) from rfl]
  rw [skipJWs_cons_of_neg (by decide)]
  rw [parseValue.eq_def]
  simp only []
  rw [if_neg (by decide : ¬ obrace = dquote), if_pos trivial]
  rw [skipJWs_cons_of_neg (by decide)]
  simp only [List.head?_cons]
  rw [if_neg (show ¬ (some dquote = some cbrace) from by decide)]
  rw [parseMems.eq_def]
  simp only []
  rw [if_pos trivial]
  rw [show ('v' :: 'a' :: 'l' :: 'u' :: 'e' :: dquote :: ':' :: ' ' :: dquote ::
      (l1 ++ nlc :: (l2 ++ [dquote, cbrace]))) =
    ['v', 'a', 'l', 'u', 'e'] ++ dquote :: ':' :: ' ' :: dquote ::
      (l1 ++ nlc :: (l2 ++ [dquote, cbrace])) from rfl]
  rw [parseStrBody_plain_run (by decide), parseStrBody_close]
  simp only [Option.some_bind]
  rw [skipJWs_cons_of_neg (by decide)]
  simp only [List.head?_cons, List.tail_cons]
  rw [if_pos trivial]
  rw [skipJWs_cons_of_pos (by decide), skipJWs_cons_of_neg (by decide)]
  rw [parseValue_dquote (by omega), hcont]
  simp

/-- The strict parser accepts `mlFixed`, recovering the object whose
`"value"` field is the two lines joined by the line break. -/
theorem mlFixed_loads (l1 l2 : List Char) :
    json_loads (mlFixed l1 l2) =
      some (JValue.obj [(['v', 'a', 'l', 'u', 'e'],
        JValue.str (l1 ++ nlc :: l2))]) := by
  obtain ⟨N, hN⟩ : ∃ N, (mlFixed l1 l2).length = N + 2 :=
    ⟨(mlFixed l1 l2).length - 2, by simp [mlFixed, json_dumps_string]⟩
  have hsuf : json_dumps_string (l1 ++ nlc :: l2) ++ [cbrace] =
      dquote :: (escapeChars (l1 ++ nlc :: l2) ++ dquote :: cbrace :: []) := by
    simp [json_dumps_string, List.append_assoc]
  unfold json_loads
  rw [hN]
  rw [show mlFixed l1 l2 = obrace :: dquote :: 'v' :: 'a' :: 'l' :: 'u' :: 'e' ::
    dquote :: ':' :: ' ' :: (json_dumps_string (l1 ++ nlc :: l2) ++ [cbrace]) from rfl]
  rw [skipJWs_cons_of_neg (by decide)]
  rw [parseValue.eq_def]
  simp only []
  rw [if_neg (by decide : ¬ obrace = dquote), if_pos trivial]
  rw [skipJWs_cons_of_neg (by decide)]
  simp only [List.head?_cons]
  rw [if_neg (show ¬ (some dquote = some cbrace) from by decide)]
  rw [parseMems.eq_def]
  simp only []
  rw [if_pos trivial]
  rw [show ('v' :: 'a' :: 'l' :: 'u' :: 'e' :: dquote :: ':' :: ' ' ::
      (json_dumps_string (l1 ++ nlc :: l2) ++ [cbrace])) =
    ['v', 'a', 'l', 'u', 'e'] ++ dquote :: ':' :: ' ' ::
      (json_dumps_string (l1 ++ nlc :: l2) ++ [cbrace]) from rfl]
  rw [parseStrBody_plain_run (by decide), parseStrBody_close]
  simp only [Option.some_bind]
  rw [skipJWs_cons_of_neg (by decide)]
  simp only [List.head?_cons, List.tail_cons]
  rw [if_pos trivial]
  rw [skipJWs_cons_of_pos (by decide), hsuf, skipJWs_cons_of_neg (by decide)]
  rw [parseValue_dquote (by omega), parseStrBody_escape]
  simp only [Option.map_some', List.reverse_nil, List.nil_append, Option.some_bind]
  rw [skipJWs_cons_of_neg (by decide)]
  simp only [List.head?_cons, List.tail_cons]
  rw [if_neg (show ¬ (some cbrace = some ',') from by decide), if_pos trivial]
  simp [skipJWs, insertKey]

/-- The balancer leaves `mlDoc` unchanged: it starts at its only brace, has
no surrounding whitespace, equal brace counts and ends with `\x7d`. -/
theorem repair_mlDoc (l1 l2 : List Char)
    (h1 : ∀ c ∈ l1, SafeChar c) (h2 : ∀ c ∈ l2, SafeChar c) :
    repair_json (mlDoc l1 l2) = mlDoc l1 l2 := by
  have hlast : (mlDoc l1 l2).getLast? = some cbrace := by
    rw [show mlDoc l1 l2 = (obrace :: dquote :: 'v' :: 'a' :: 'l' :: 'u' :: 'e' ::
      dquote :: ':' :: ' ' :: dquote :: (l1 ++ nlc :: (l2 ++ [dquote]))) ++ [cbrace]
      from by simp [mlDoc, List.append_assoc]]
    exact List.getLast?_concat _
  have hcount : (mlDoc l1 l2).count obrace ≤ (mlDoc l1 l2).count cbrace := by
    have c1 : l1.count obrace = 0 :=
      List.count_eq_zero.mpr (fun hm => ((h1 _ hm).2.2.2.1) rfl)
    have c2 : l2.count obrace = 0 :=
      List.count_eq_zero.mpr (fun hm => ((h2 _ hm).2.2.2.1) rfl)
    have c3 : l1.count cbrace = 0 :=
      List.count_eq_zero.mpr (fun hm => ((h1 _ hm).2.2.2.2.1) rfl)
    have c4 : l2.count cbrace = 0 :=
      List.count_eq_zero.mpr (fun hm => ((h2 _ hm).2.2.2.2.1) rfl)
    simp +decide [mlDoc, List.count_cons, List.count_append, c1, c2, c3, c4]
  rw [show mlDoc l1 l2 = obrace :: (dquote :: 'v' :: 'a' :: 'l' :: 'u' :: 'e' ::
    dquote :: ':' :: ' ' :: dquote :: (l1 ++ nlc :: (l2 ++ [dquote, cbrace])))
    from rfl] at hlast hcount ⊢
  exact repair_json_fixed hlast hcount

theorem timeMatchAt_not_colon {c : Char} (h : c ≠ ':') (t : List Char) :
    timeMatchAt (c :: t) = none := by
  rw [timeMatchAt.eq_def]
  simp only []
  rw [if_neg h]

/-- At the document's structural colon a quote follows the whitespace, so
the time pattern's digit fails. -/
theorem timeMatchAt_colon_quote (rest : List Char) :
    timeMatchAt (':' :: ' ' :: dquote :: rest) = none := by
  rw [timeMatchAt.eq_def]
  simp only []
  rw [if_pos trivial]
  rw [show (' ' :: dquote :: rest).dropWhile isPySpace = dquote :: rest from by
    simp +decide [List.dropWhile_cons]]
  simp only []
  rw [if_neg (by decide : ¬ isDigitCh dquote = true)]

theorem timeSubF_cons_of_none {c : Char} {s : List Char}
    (h : timeMatchAt (c :: s) = none) (fuel : Nat) :
    timeSubF (fuel + 1) (c :: s) = c :: timeSubF fuel s := by
  rw [timeSubF.eq_def]
  simp only []
  rw [h]

theorem timeSubF_id : ∀ (s : List Char) (fuel : Nat),
    (∀ t, t <:+ s → timeMatchAt t = none) → timeSubF fuel s = s
  | _, 0, _ => rfl
  | [], _ + 1, _ => rfl
  | c :: s, fuel + 1, h => by
    rw [timeSubF_cons_of_none (h (c :: s) (List.suffix_refl _)) fuel,
      timeSubF_id s fuel (fun t ht => h t (ht.trans (List.suffix_cons c s)))]

theorem timeNoMatch_append (a : List Char) (ha : ∀ c ∈ a, c ≠ ':')
    {b : List Char} (hb : ∀ t, t <:+ b → timeMatchAt t = none) :
    ∀ t, t <:+ a ++ b → timeMatchAt t = none := by
  induction a with
  | nil => simpa using hb
  | cons c a ih =>
    intro t ht
    rw [List.cons_append, List.suffix_cons_iff] at ht
    rcases ht with rfl | ht
    · exact timeMatchAt_not_colon (ha c (by simp)) _
    · exact ih (fun x hx => ha x (by simp [hx])) t ht

theorem timeNoMatch_tail2 : ∀ t, t <:+ [dquote, cbrace] → timeMatchAt t = none := by
  intro t ht
  rw [List.suffix_cons_iff] at ht
  rcases ht with rfl | ht
  · decide
  rw [List.suffix_cons_iff] at ht
  rcases ht with rfl | ht
  · decide
  rw [List.suffix_nil] at ht
  subst ht
  decide

theorem timeNoMatch_mlDoc (l1 l2 : List Char)
    (h1 : ∀ c ∈ l1, SafeChar c) (h2 : ∀ c ∈ l2, SafeChar c) :
    ∀ t, t <:+ mlDoc l1 l2 → timeMatchAt t = none := by
  have hs2 : ∀ t, t <:+ l2 ++ [dquote, cbrace] → timeMatchAt t = none :=
    timeNoMatch_append l2 (fun c hc => (h2 c hc).2.2.2.2.2.2.2.1) timeNoMatch_tail2
  have hs2n : ∀ t, t <:+ nlc :: (l2 ++ [dquote, cbrace]) → timeMatchAt t = none :=
    timeNoMatch_append [nlc] (by decide) hs2
  have hs1 : ∀ t, t <:+ l1 ++ nlc :: (l2 ++ [dquote, cbrace]) →
      timeMatchAt t = none :=
    timeNoMatch_append l1 (fun c hc => (h1 c hc).2.2.2.2.2.2.2.1) hs2n
  have hs0 : ∀ t, t <:+ dquote :: (l1 ++ nlc :: (l2 ++ [dquote, cbrace])) →
      timeMatchAt t = none := by
    intro t ht
    rw [List.suffix_cons_iff] at ht
    rcases ht with rfl | ht
    · exact timeMatchAt_not_colon (by decide) _
    · exact hs1 t ht
  have hsc : ∀ t, t <:+ ':' :: ' ' :: dquote ::
      (l1 ++ nlc :: (l2 ++ [dquote, cbrace])) → timeMatchAt t = none := by
    intro t ht
    rw [List.suffix_cons_iff] at ht
    rcases ht with rfl | ht
    · exact timeMatchAt_colon_quote _
    rw [List.suffix_cons_iff] at ht
    rcases ht with rfl | ht
    · exact timeMatchAt_not_colon (by decide) _
    · exact hs0 t ht
  exact timeNoMatch_append
    [obrace, dquote, 'v', 'a', 'l', 'u', 'e', dquote] (by decide) hsc

theorem times_mlDoc (l1 l2 : List Char)
    (h1 : ∀ c ∈ l1, SafeChar c) (h2 : ∀ c ∈ l2, SafeChar c) :
    repair_json_times (mlDoc l1 l2) = mlDoc l1 l2 := by
  unfold repair_json_times
  rw [if_neg (by simp [mlDoc])]
  exact timeSubF_id _ _ (timeNoMatch_mlDoc l1 l2 h1 h2)

theorem sqSubF_cons_not {c : Char} (h : c ≠ squote) {s : List Char} (fuel : Nat) :
    sqSubF (fuel + 1) (c :: s) = c :: sqSubF fuel s := by
  rw [sqSubF.eq_def]
  simp only []
  rw [if_neg h]

theorem sqSubF_id : ∀ (s : List Char) (fuel : Nat), squote ∉ s → sqSubF fuel s = s
  | _, 0, _ => rfl
  | [], _ + 1, _ => rfl
  | c :: s, fuel + 1, h => by
    rw [sqSubF_cons_not (fun hc => h (by simp [hc])) fuel,
      sqSubF_id s fuel (fun hm => h (by simp [hm]))]

theorem sq_mlDoc (l1 l2 : List Char)
    (h1 : ∀ c ∈ l1, SafeChar c) (h2 : ∀ c ∈ l2, SafeChar c) :
    fix_single_quotes_in_list (mlDoc l1 l2) = mlDoc l1 l2 := by
  unfold fix_single_quotes_in_list
  rw [if_neg (by simp [mlDoc])]
  apply sqSubF_id
  intro hm
  simp +decide [mlDoc] at hm
  rcases hm with hm | hm
  · exact ((h1 _ hm).2.1) rfl
  · exact ((h2 _ hm).2.1) rfl

theorem mlMatchAt_not_dquote {c : Char} (h : c ≠ dquote) (t : List Char) :
    mlMatchAt (c :: t) = none := by
  rw [mlMatchAt.eq_def]
  simp only []
  rw [if_neg h]

theorem mlSubF_cons_of_none {c : Char} {s : List Char}
    (h : mlMatchAt (c :: s) = none) (fuel : Nat) :
    mlSubF (fuel + 1) (c :: s) = c :: mlSubF fuel s := by
  rw [mlSubF.eq_def]
  simp only []
  rw [h]

theorem mlSubF_cons_of_some {c : Char} {s g1 inner r : List Char}
    (h : mlMatchAt (c :: s) = some (g1, inner, r)) (fuel : Nat) :
    mlSubF (fuel + 1) (c :: s) = g1 ++ json_dumps_string inner ++ mlSubF fuel r := by
  rw [mlSubF.eq_def]
  simp only []
  rw [h]

theorem mlSubF_nil : ∀ fuel, mlSubF fuel [] = []
  | 0 => rfl
  | _ + 1 => rfl

/-- The lazy content scan stops at the first quote whose tail check
succeeds; a quote-free content passes straight through. -/
theorem mlFindClose_free : ∀ {content : List Char},
    (∀ c ∈ content, c ≠ dquote) → ∀ {tail : List Char}, mlCheckTail tail = true →
    mlFindClose (content ++ dquote :: tail) =
      some (content, tail.dropWhile isPySpace)
  | [], _, tail, ht => by
    rw [List.nil_append, mlFindClose.eq_def]
    simp only []
    rw [if_pos trivial, if_pos ht]
  | c :: content, h, tail, ht => by
    rw [List.cons_append, mlFindClose.eq_def]
    simp only []
    rw [if_neg (h c (by simp)),
      mlFindClose_free (fun x hx => h x (by simp [hx])) ht]
    rfl

/-- The multiline pattern matches at the `"value"` key of `mlDoc`. -/
theorem mlMatchAt_mlDoc_inner (l1 l2 : List Char)
    (hfree : ∀ c ∈ l1 ++ nlc :: l2, c ≠ dquote) :
    mlMatchAt (dquote :: 'v' :: 'a' :: 'l' :: 'u' :: 'e' :: dquote :: ':' :: ' ' ::
        dquote :: (l1 ++ nlc :: (l2 ++ [dquote, cbrace]))) =
      some (dquote :: 'v' :: 'a' :: 'l' :: 'u' :: 'e' :: dquote :: [':', ' '],
        l1 ++ nlc :: l2, [cbrace]) := by
  rw [mlMatchAt.eq_def]
  simp only []
  rw [if_pos trivial]
  rw [if_pos trivial]
  rw [show (':' :: ' ' :: dquote ::
      (l1 ++ nlc :: (l2 ++ [dquote, cbrace]))).takeWhile isPySpace = [] from by
    simp +decide [List.takeWhile_cons]]
  rw [show (':' :: ' ' :: dquote ::
      (l1 ++ nlc :: (l2 ++ [dquote, cbrace]))).dropWhile isPySpace =
    ':' :: ' ' :: dquote :: (l1 ++ nlc :: (l2 ++ [dquote, cbrace])) from by
    simp +decide [List.dropWhile_cons]]
  simp only []
  rw [show (' ' :: dquote ::
      (l1 ++ nlc :: (l2 ++ [dquote, cbrace]))).takeWhile isPySpace = [' '] from by
    simp +decide [List.takeWhile_cons]]
  rw [show (' ' :: dquote ::
      (l1 ++ nlc :: (l2 ++ [dquote, cbrace]))).dropWhile isPySpace =
    dquote :: (l1 ++ nlc :: (l2 ++ [dquote, cbrace])) from by
    simp +decide [List.dropWhile_cons]]
  simp only []
  rw [if_pos trivial]
  rw [show (l1 ++ nlc :: (l2 ++ [dquote, cbrace])) =
    (l1 ++ nlc :: l2) ++ dquote :: [cbrace] from by simp [List.append_assoc]]
  rw [mlFindClose_free hfree (by decide : mlCheckTail [cbrace] = true)]
  simp +decide [List.dropWhile_cons]

/-- The re-escaper rewrites `mlDoc` into `mlFixed`: the matched content is
re-encoded with `json.dumps` in place. -/
theorem ml_mlDoc (l1 l2 : List Char)
    (h1 : ∀ c ∈ l1, SafeChar c) (h2 : ∀ c ∈ l2, SafeChar c) :
    repair_multiline_value_string (mlDoc l1 l2) = mlFixed l1 l2 := by
  have hfree : ∀ c ∈ l1 ++ nlc :: l2, c ≠ dquote := by
    intro c hc
    rcases List.mem_append.mp hc with hm | hm
    · exact (h1 c hm).1
    · rcases List.mem_cons.mp hm with rfl | hm2
      · decide
      · exact (h2 c hm2).1
  obtain ⟨N, hN⟩ : ∃ N, (mlDoc l1 l2).length = (N + 1) + 1 :=
    ⟨(mlDoc l1 l2).length - 2, by simp [mlDoc]⟩
  unfold repair_multiline_value_string
  rw [if_neg (by simp [mlDoc])]
  rw [hN]
  rw [show mlDoc l1 l2 = obrace :: (dquote :: 'v' :: 'a' :: 'l' :: 'u' :: 'e' ::
    dquote :: ':' :: ' ' :: dquote :: (l1 ++ nlc :: (l2 ++ [dquote, cbrace])))
    from rfl]
  rw [mlSubF_cons_of_none (mlMatchAt_not_dquote (by decide) _)]
  rw [mlSubF_cons_of_some (mlMatchAt_mlDoc_inner l1 l2 hfree)]
  rw [mlSubF_cons_of_none (mlMatchAt_not_dquote (by decide) _), mlSubF_nil]
  simp [mlFixed, List.append_assoc]

/-- C8 (corrected): the claimed recovery fails outright when a line holds a
brace — on `\x7b"value": "a\x7b` + newline + `b"\x7d` the quote-unaware
balancer appends a spurious `\x7d`, no stage yields a strict parse, the
fallback also fails, and the pipeline reports an error with value None. -/
theorem claim_C8_counterexample :
    (safe_json_loads ("\x7b\"value\": \"a\x7b\nb\"\x7d".toList)).value =
      JValue.null ∧
    (safe_json_loads ("\x7b\"value\": \"a\x7b\nb\"\x7d".toList)).error.isSome =
      true := by
  decide

/-- C8 (amended): for two lines of delimiter-free characters, the document
`\x7b"value": "<line1>\n<line2>"\x7d` is recovered by the multiline
re-escaper: the pipeline succeeds at the fifth stage with the object whose
`"value"` field is the two lines joined by the line break, the final
candidate being the re-escaped document and the error None. -/
theorem claim_C8 (l1 l2 : List Char)
    (h1 : ∀ c ∈ l1, SafeChar c) (h2 : ∀ c ∈ l2, SafeChar c) :
    safe_json_loads (mlDoc l1 l2) =
      ⟨JValue.obj [(['v', 'a', 'l', 'u', 'e'], JValue.str (l1 ++ nlc :: l2))],
        mlFixed l1 l2, none⟩ ∧
    repair_multiline_value_string (mlDoc l1 l2) = mlFixed l1 l2 := by
  have hex := extract_mlDoc l1 l2 h1 h2
  have hrep := repair_mlDoc l1 l2 h1 h2
  have htime := times_mlDoc l1 l2 h1 h2
  have hsq := sq_mlDoc l1 l2 h1 h2
  have hml := ml_mlDoc l1 l2 h1 h2
  have hnone := mlDoc_loads_none l1 l2 h1
  have hok := mlFixed_loads l1 l2
  have hne : mlDoc l1 l2 ≠ [] := by simp [mlDoc]
  refine ⟨?_, hml⟩
  have h4 := safe_succ4 hne
    (by rw [hex]; exact hnone)
    (by rw [hex, hrep]; exact hnone)
    (by rw [hex, hrep, htime]; exact hnone)
    (by rw [hex, hrep, htime, hsq]; exact hnone)
    (by rw [hex, hrep, htime, hsq, hml]; exact hok)
  rw [hex, hrep, htime, hsq, hml] at h4
  exact h4

/-- C8 witness: the amended property at the concrete lines `Hi` and `yo`. -/
theorem claim_C8_witness :
    (∀ c ∈ ['H', 'i'], SafeChar c) ∧ (∀ c ∈ ['y', 'o'], SafeChar c) ∧
    (safe_json_loads (mlDoc ['H', 'i'] ['y', 'o']) =
      ⟨JValue.obj [(['v', 'a', 'l', 'u', 'e'],
        JValue.str (['H', 'i'] ++ nlc :: ['y', 'o']))],
        mlFixed ['H', 'i'] ['y', 'o'], none⟩ ∧
    repair_multiline_value_string (mlDoc ['H', 'i'] ['y', 'o']) =
      mlFixed ['H', 'i'] ['y', 'o']) :=
  ⟨by decide, by decide, claim_C8 ['H', 'i'] ['y', 'o'] (by decide) (by decide)⟩

/-- C5 witness: a concrete prose/object/trailing instance of the amended
property. -/
theorem claim_C5_witness :
    obrace ∉ "Here is the JSON: ".toList ∧
    (extract_first_json_object ("Here is the JSON: ".toList ++
        dumps (JValue.obj [("a".toList, JValue.num 1)]) ++ " Done.".toList) =
      dumps (JValue.obj [("a".toList, JValue.num 1)]) ∧
    ∃ w, json_loads (dumps (JValue.obj [("a".toList, JValue.num 1)])) = some w ∧
      safe_json_loads ("Here is the JSON: ".toList ++
          dumps (JValue.obj [("a".toList, JValue.num 1)]) ++ " Done.".toList) =
        ⟨w, dumps (JValue.obj [("a".toList, JValue.num 1)]), none⟩) :=
  ⟨by decide, claim_C5 ("Here is the JSON: ".toList) (" Done.".toList)
    [("a".toList, JValue.num 1)] (by decide)⟩

end CPE
